import Mathlib

/-!
Verification of the smarticles particle-life simulation and its
neuroevolution pipeline, as a shallow embedding in Lean 4.

Conventions of the embedding:
* `f32` scalars are idealized as exact rationals (`ℚ`); the decimal
  constants of the source (`0.06`, `0.0008`, `34.1`, …) are exact.
* `f32::sqrt` is modelled by `ratSqrt`, an executable rational square
  root that is exact whenever the radicand is the square of a rational
  (every concrete input evaluated in this file is of that form).
* Randomness (spawn jitter, mutation noise, crossover picks, weighted
  sampling) is supplied by explicit oracle arguments.
* `rayon` parallel iterators are data-parallel maps over a frozen
  snapshot followed by a sequential commit; they are embedded as the
  corresponding pure `List.map` in the same iteration order.
-/

namespace Smarticles

/-- 2D vector of rationals, embedding `eframe::egui::Vec2` (f32 pair). -/
structure Vec2 where
  x : ℚ
  y : ℚ
deriving DecidableEq, Repr

instance : Add Vec2 := ⟨fun a b => ⟨a.x + b.x, a.y + b.y⟩⟩
instance : Sub Vec2 := ⟨fun a b => ⟨a.x - b.x, a.y - b.y⟩⟩

/-- Scalar multiplication `c * v` on `Vec2`. -/
def Vec2.scale (c : ℚ) (v : Vec2) : Vec2 := ⟨c * v.x, c * v.y⟩

/-- Embeds `Vec2::ZERO`. -/
def Vec2.zero : Vec2 := ⟨0, 0⟩

@[simp] theorem Vec2.add_def (a b : Vec2) : a + b = ⟨a.x + b.x, a.y + b.y⟩ := rfl
@[simp] theorem Vec2.sub_def (a b : Vec2) : a - b = ⟨a.x - b.x, a.y - b.y⟩ := rfl

/-- Fuel-driven binary search for the integer square root; the fuel
bound `512` covers every argument below `2^512`. -/
def isqrtAux (n : ℕ) : ℕ → ℕ → ℕ → ℕ
  | lo, _, 0 => lo
  | lo, hi, fuel+1 =>
    if hi ≤ lo + 1 then lo
    else
      let m := (lo + hi) / 2
      if m * m ≤ n then isqrtAux n m hi fuel else isqrtAux n lo m fuel

/-- Executable integer square root (rounded down). -/
def isqrt (n : ℕ) : ℕ := isqrtAux n 0 (n + 1) 512

/-- Rational square root model for `f32::sqrt`: exact whenever numerator
and denominator of the (reduced) radicand are perfect squares, which is
the case for every radicand this file evaluates concretely. -/
def ratSqrt (q : ℚ) : ℚ := (isqrt q.num.toNat : ℚ) / (isqrt q.den : ℚ)

/-- Embeds `Vec2::length`, i.e. `sqrt (x² + y²)`. -/
def Vec2.length (v : Vec2) : ℚ := ratSqrt (v.x * v.x + v.y * v.y)

/-- Embeds `Vec2::normalized` from `egui`'s `emath`: it returns `self` unchanged
when the length is not positive (this is how the source avoids a
division by zero for the self-interaction of a particle). -/
def Vec2.normalized (v : Vec2) : Vec2 :=
  let len := v.length
  if len ≤ 0 then v else ⟨v.x / len, v.y / len⟩

/-! ## Constants of `src/simulation.rs` and the crate root -/

def CLASS_COUNT : ℕ := 6
def DAMPING_FACTOR : ℚ := 0.06
def FORCE_SCALING_FACTOR : ℚ := 0.0008
def FIRST_THRESHOLD : ℚ := 10
def SECOND_THRESHOLD : ℚ := 12
def INTERACTION_THRESHOLD : ℚ := FIRST_THRESHOLD + 2 * SECOND_THRESHOLD
def PROXIMITY_POWER : ℚ := -60

/-- Embeds `compute_force` of `src/simulation.rs`: piecewise-linear central
force magnitude as a function of radius and power. -/
def compute_force (radius power : ℚ) : ℚ :=
  if radius < FIRST_THRESHOLD then
    (radius / FIRST_THRESHOLD - 1) * PROXIMITY_POWER
  else if radius < FIRST_THRESHOLD + SECOND_THRESHOLD then
    (radius / SECOND_THRESHOLD - FIRST_THRESHOLD / SECOND_THRESHOLD) * power
  else if radius < INTERACTION_THRESHOLD then
    (-radius / SECOND_THRESHOLD + FIRST_THRESHOLD / SECOND_THRESHOLD + 2) * power
  else
    0

/-! ## Cells -/

/-- Rust's `as i32` float-to-int cast truncates toward zero; on an exact
rational `q` this is `q.num / q.den` with Lean's (T-division) `Int./`. -/
def ratTrunc (q : ℚ) : ℤ := q.num.tdiv (q.den : ℤ)

/-- A spatial-hash cell, `struct Cell(i32, i32)`. -/
abbrev Cell : Type := ℤ × ℤ

def CELL_SIZE : ℚ := INTERACTION_THRESHOLD + 0.1

/-- Embeds `Cell::from_position`. -/
def Cell.from_position (position : Vec2) : Cell :=
  (ratTrunc (position.x / CELL_SIZE), ratTrunc (position.y / CELL_SIZE))

/-- Embeds `Cell::get_neighbors`: the 3×3 block of cells centered on `self`,
in source order. -/
def Cell.get_neighbors (c : Cell) : List Cell :=
  let x := c.1
  let y := c.2
  [(x - 1, y - 1), (x - 1, y), (x - 1, y + 1),
   (x, y - 1), (x, y), (x, y + 1),
   (x + 1, y - 1), (x + 1, y), (x + 1, y + 1)]

/-! ## Simulation state -/

/-- A particle identifier `(class, slot)`. -/
abbrev PIdx : Type := ℕ × ℕ

/-- The simulation state of `src/simulation.rs`.  The dense
`Mat2D<Vec2>` position arrays are embedded as total functions on
indices; the `HashMap<Cell, Vec<(usize, usize)>>` is embedded as an
association list (entry order is unobservable through lookups). -/
structure Simulation where
  particle_counts : ℕ → ℕ
  power_matrix : ℕ → ℕ → ℤ
  particle_prev_positions : PIdx → Vec2
  particle_positions : PIdx → Vec2
  cell_map : List (Cell × List PIdx)

/-- The active particle identifiers in class-major order, matching the
nested `for c in 0..CLASS_COUNT { for p in 0..counts[c] }` loops. -/
def activeIndices (s : Simulation) : List PIdx :=
  (List.range CLASS_COUNT).flatMap fun c =>
    (List.range (s.particle_counts c)).map fun p => (c, p)

/-- Push `idx` onto the list held at key `k`, creating the entry if the
key is absent (`cell_map.entry(cell).or_default().push(...)`). -/
def insertPush (m : List (Cell × List PIdx)) (k : Cell) (idx : PIdx) :
    List (Cell × List PIdx) :=
  if m.any (fun e => e.1 = k) then
    m.map fun e => if e.1 = k then (e.1, e.2 ++ [idx]) else e
  else
    m ++ [(k, [idx])]

/-- The `retain` pass of `organize_particles`: drop entries whose list
is empty, clear the others in place. -/
def retainClear (m : List (Cell × List PIdx)) : List (Cell × List PIdx) :=
  (m.filter fun e => ¬ e.2.isEmpty).map fun e => (e.1, ([] : List PIdx))

/-- Embeds `Simulation::organize_particles`. -/
def organize_particles (s : Simulation) : Simulation :=
  { s with
    cell_map :=
      (activeIndices s).foldl
        (fun m idx => insertPush m (Cell.from_position (s.particle_positions idx)) idx)
        (retainClear s.cell_map) }

/-- Association-list lookup, embedding `HashMap::get`. -/
def lookupCell (m : List (Cell × List PIdx)) (k : Cell) : Option (List PIdx) :=
  (m.find? fun e => e.1 = k).map (·.2)

/-- Embeds `Simulation::get_neighboring_particles`. -/
def get_neighboring_particles (s : Simulation) (cell : Cell) : List PIdx :=
  (Cell.get_neighbors cell).flatMap fun neighbor => (lookupCell s.cell_map neighbor).getD []

/-- The force contribution of one neighbor `q` on the particle of class
`c1` sitting at `pos` (the body of the `for (c2, p2)` loop: the running
force is decremented by this vector). -/
def pairContribution (s : Simulation) (c1 : ℕ) (pos : Vec2) (q : PIdx) : Vec2 :=
  let power : ℤ := - s.power_matrix c1 q.1
  let other_pos := s.particle_positions q
  let distance := other_pos - pos
  Vec2.scale (compute_force distance.length (power : ℚ) * FORCE_SCALING_FACTOR)
    distance.normalized

/-- The new `(pos, new_pos)` pair computed for one particle inside
`compute_positions` (read phase only; the state is not written). -/
def particleUpdate (s : Simulation) (idx : PIdx) : Vec2 × Vec2 :=
  let pos := s.particle_positions idx
  let cell := Cell.from_position pos
  let neighboring_particles := get_neighboring_particles s cell
  let force :=
    neighboring_particles.foldl (fun f q => f - pairContribution s idx.1 pos q) Vec2.zero
  let prev_pos := s.particle_prev_positions idx
  let force := force + Vec2.scale DAMPING_FACTOR (prev_pos - pos)
  let new_pos := Vec2.scale 2 pos - prev_pos + force
  (pos, new_pos)

/-- Embeds `Simulation::compute_positions`: the parallel read phase, embedded
as the corresponding map over the active indices in class-major order. -/
def compute_positions (s : Simulation) : List (PIdx × (Vec2 × Vec2)) :=
  (activeIndices s).map fun idx => (idx, particleUpdate s idx)

/-- Pointwise update of a dense array embedded as a function. -/
def updateFn (f : PIdx → Vec2) (idx : PIdx) (v : Vec2) : PIdx → Vec2 :=
  fun j => if j = idx then v else f j

/-- Embeds `Simulation::move_particles`: organize, read phase, then the
sequential commit of every `(prev, pos)` pair. -/
def move_particles (s : Simulation) : Simulation :=
  let s1 := organize_particles s
  let updates := compute_positions s1
  { s1 with
    particle_prev_positions :=
      updates.foldl (fun f u => updateFn f u.1 u.2.1) s1.particle_prev_positions,
    particle_positions :=
      updates.foldl (fun f u => updateFn f u.1 u.2.2) s1.particle_positions }

end Smarticles

namespace Smarticles

/-! ## Reference definitions for the refinement claims -/

/-- Sum of a list of vectors (fold from `Vec2.zero`). -/
def vecSum (l : List Vec2) : Vec2 := l.foldl (· + ·) Vec2.zero

/-- The net force of one tick on particle `idx`, as described by the
claim: the damping term proportional to `prev - pos` plus the
(negated, scaled) sum of the pairwise contributions gathered from the
neighbor candidates of the freshly organized cell map. -/
def net_force (s : Simulation) (idx : PIdx) : Vec2 :=
  let s1 := organize_particles s
  let pos := s1.particle_positions idx
  let cands := get_neighboring_particles s1 (Cell.from_position pos)
  Vec2.scale DAMPING_FACTOR (s1.particle_prev_positions idx - pos) -
    vecSum (cands.map (pairContribution s1 idx.1 pos))

/-- Modelled from the spec: the naive sequential reference
implementation of a tick, which computes every new position from the
start-of-tick snapshot (with a cell index freshly rebuilt from the
snapshot positions) and then writes all of them. -/
def naive_tick (s : Simulation) : Simulation :=
  let fresh := organize_particles { s with cell_map := [] }
  { s with
    cell_map := fresh.cell_map
    particle_positions := fun idx =>
      if idx ∈ activeIndices s then (particleUpdate fresh idx).2
      else s.particle_positions idx
    particle_prev_positions := fun idx =>
      if idx ∈ activeIndices s then s.particle_positions idx
      else s.particle_prev_positions idx }

/-- Squared euclidean distance between two positions (used to phrase
"within the interaction range" without a square root). -/
def dist2 (a b : Vec2) : ℚ :=
  (a.x - b.x) * (a.x - b.x) + (a.y - b.y) * (a.y - b.y)

/-- Modelled from the claim: the three-zone piecewise-linear reference
for the force model — a power-independent repulsion relaxing linearly
from the proximity magnitude `60` at distance `0` to `0` at `T1`, a
linear ramp from `0` to `power` on `[T1, T1+T2)`, a linear ramp back
from `power` to `0` on `[T1+T2, T1+2·T2)`, and `0` beyond. -/
def compute_force_ref (d power : ℚ) : ℚ :=
  if d < FIRST_THRESHOLD then
    (-PROXIMITY_POWER) * (1 - d / FIRST_THRESHOLD)
  else if d < FIRST_THRESHOLD + SECOND_THRESHOLD then
    power * ((d - FIRST_THRESHOLD) / SECOND_THRESHOLD)
  else if d < FIRST_THRESHOLD + 2 * SECOND_THRESHOLD then
    power * (1 - (d - (FIRST_THRESHOLD + SECOND_THRESHOLD)) / SECOND_THRESHOLD)
  else 0

/-! ## Neural networks (`src/ai/net.rs`)

The `Mat2D` used by the AI module stores a dense `num_rows ×
num_columns` matrix of `f32`.  It is embedded with its entries as a
total function; `Mat2D::random(Uniform::new(..), r, c)` produces an
`r × c` matrix of sampled entries, so its embedding takes the sampled
entries as an oracle.  Matrix addition asserts that the dimensions
agree and produces a matrix with the dimensions of its left operand
(`Mat2D::from_rows(.., self.num_rows(), self.num_columns())`). -/

structure Mat2D where
  num_rows : ℕ
  num_columns : ℕ
  entry : ℕ → ℕ → ℚ

/-- Matrix addition; the source asserts equal dimensions (a caller
obligation) and shapes the result after the left operand. -/
def Mat2D.add (a b : Mat2D) : Mat2D :=
  ⟨a.num_rows, a.num_columns, fun i j => a.entry i j + b.entry i j⟩

/-- Entrywise map, preserving the dimensions. -/
def Mat2D.map (a : Mat2D) (f : ℚ → ℚ) : Mat2D :=
  ⟨a.num_rows, a.num_columns, fun i j => f (a.entry i j)⟩

/-- Embeds `Mat2D::random(dist, num_rows, num_columns)`: an
`r × c` matrix whose sampled entries are supplied by the oracle. -/
def Mat2D.random (noise : ℕ → ℕ → ℚ) (r c : ℕ) : Mat2D := ⟨r, c, noise⟩

inductive ActivationFn where
  | relu
  | leakyRelu
  | sigmoid
  | tanh
deriving DecidableEq, Repr

structure Layer where
  input_size : ℕ
  output_size : ℕ
  weights : Mat2D
  biases : Mat2D
  activation_fn : ActivationFn

structure Network where
  layers : List Layer

instance : Inhabited Network := ⟨⟨[]⟩⟩

/-- Embeds `Network::mutate`.  The mutation rate of the source only
scales the support of the uniform noise distributions
(`rate/sqrt(input_size)` for weights, `0.2·rate` for biases); the
sampled noise itself is supplied by the oracle, one pair of entry
functions per layer.  The source's assertion `rate ∈ [0,1]` is a
caller precondition; it does not influence the shape of the result. -/
def Network.mutate (net : Network) (noise : ℕ → (ℕ → ℕ → ℚ) × (ℕ → ℕ → ℚ)) : Network :=
  ⟨net.layers.enum.map fun iL =>
    let i := iL.1
    let L := iL.2
    { L with
      weights := L.weights.add (Mat2D.random (noise i).1 L.output_size L.input_size)
      biases := L.biases.add (Mat2D.random (noise i).2 L.output_size 1) }⟩

/-- Embeds `Network::average`: the elementwise mean of two networks.
The source indexes `other.layers[i]` for `i` below `self.layers.len()`
and panics when `other` is shorter; the embedding totalizes that
indexing with `getD` (every claim about `average` assumes matching
topologies, under which the default is never used). -/
def Network.average (net other : Network) : Network :=
  ⟨net.layers.enum.map fun iL =>
    let i := iL.1
    let L := iL.2
    let oL := other.layers.getD i L
    { L with
      weights := (L.weights.add oL.weights).map (fun x => x / 2)
      biases := (L.biases.add oL.biases).map (fun x => x / 2) }⟩

/-- Embeds `Network::crossover`.  For every layer the source walks the
`(row, column)` pairs of the weight matrix, choosing each weight from
`self` or `other` by an independent biased coin, and on each step also
re-chooses the bias of that row — so the bias of row `r` ends up
governed by the draw made at the last column.  The coin flips are
supplied by the oracle `pick` (first component: the weight draw at
`(layer, row, column)`; second: the bias draw made at that step); the
`selection_probability` argument only biases the coins and is consumed
by the oracle.  Out-of-range entries keep the values of `self`. -/
def Network.crossover (net other : Network) (selection_probability : ℚ)
    (pick : ℕ → ℕ → ℕ → Bool × Bool) : Network :=
  ⟨net.layers.enum.map fun iL =>
    let i := iL.1
    let L := iL.2
    let oL := other.layers.getD i L
    { L with
      weights :=
        ⟨L.weights.num_rows, L.weights.num_columns, fun r c =>
          if r < L.weights.num_rows ∧ c < L.weights.num_columns then
            (if (pick i r c).1 then L.weights.entry r c else oL.weights.entry r c)
          else L.weights.entry r c⟩
      biases :=
        ⟨L.biases.num_rows, L.biases.num_columns, fun r c =>
          if r < L.weights.num_rows ∧ c = 0 ∧ 0 < L.weights.num_columns then
            (if (pick i r (L.weights.num_columns - 1)).2 then L.biases.entry r 0
             else oL.biases.entry r 0)
          else L.biases.entry r c⟩ }⟩

/-! ## A minimal `f32` value model for selection weights

The selection-weight computation of `Batch::evolve` divides score
differences, and when every score is tied this is `0/0`, which is a
NaN in `f32`.  `F` models the `f32` values reachable there: finite
values (idealized as exact rationals), the infinities used as fold
sentinels, and NaN. -/

inductive F where
  | fin (q : ℚ)
  | nan
  | pinf
  | ninf
deriving DecidableEq, Repr

/-- IEEE-style subtraction on the value model. -/
def F.sub : F → F → F
  | F.fin a, F.fin b => F.fin (a - b)
  | F.nan, _ => F.nan
  | _, F.nan => F.nan
  | F.pinf, F.pinf => F.nan
  | F.pinf, _ => F.pinf
  | F.ninf, F.ninf => F.nan
  | F.ninf, _ => F.ninf
  | F.fin _, F.pinf => F.ninf
  | F.fin _, F.ninf => F.pinf

/-- IEEE-style addition on the value model. -/
def F.add : F → F → F
  | F.fin a, F.fin b => F.fin (a + b)
  | F.nan, _ => F.nan
  | _, F.nan => F.nan
  | F.pinf, F.ninf => F.nan
  | F.pinf, _ => F.pinf
  | F.ninf, F.pinf => F.nan
  | F.ninf, _ => F.ninf
  | F.fin _, F.pinf => F.pinf
  | F.fin _, F.ninf => F.ninf

/-- IEEE-style multiplication on the value model (signed zeros are not
distinguished). -/
def F.mul : F → F → F
  | F.fin a, F.fin b => F.fin (a * b)
  | F.nan, _ => F.nan
  | _, F.nan => F.nan
  | F.pinf, F.pinf => F.pinf
  | F.pinf, F.ninf => F.ninf
  | F.ninf, F.pinf => F.ninf
  | F.ninf, F.ninf => F.pinf
  | F.fin a, F.pinf => if a = 0 then F.nan else if 0 < a then F.pinf else F.ninf
  | F.fin a, F.ninf => if a = 0 then F.nan else if 0 < a then F.ninf else F.pinf
  | F.pinf, F.fin b => if b = 0 then F.nan else if 0 < b then F.pinf else F.ninf
  | F.ninf, F.fin b => if b = 0 then F.nan else if 0 < b then F.ninf else F.pinf

/-- IEEE-style division on the value model: in particular `0/0` is NaN
and `x/0` for `x ≠ 0` is a signed infinity. -/
def F.div : F → F → F
  | F.fin a, F.fin b =>
    if b = 0 then (if a = 0 then F.nan else if 0 < a then F.pinf else F.ninf)
    else F.fin (a / b)
  | F.nan, _ => F.nan
  | _, F.nan => F.nan
  | F.pinf, F.pinf => F.nan
  | F.pinf, F.ninf => F.nan
  | F.ninf, F.pinf => F.nan
  | F.ninf, F.ninf => F.nan
  | F.pinf, F.fin b => if 0 ≤ b then F.pinf else F.ninf
  | F.ninf, F.fin b => if 0 ≤ b then F.ninf else F.pinf
  | F.fin _, F.pinf => F.fin 0
  | F.fin _, F.ninf => F.fin 0

/-- Embeds `f32::min`: if one operand is NaN the other is returned. -/
def F.fmin : F → F → F
  | F.nan, b => b
  | a, F.nan => a
  | F.pinf, b => b
  | a, F.pinf => a
  | F.ninf, _ => F.ninf
  | _, F.ninf => F.ninf
  | F.fin a, F.fin b => F.fin (min a b)

/-- Embeds `f32::max`: if one operand is NaN the other is returned. -/
def F.fmax : F → F → F
  | F.nan, b => b
  | a, F.nan => a
  | F.ninf, b => b
  | a, F.ninf => a
  | F.pinf, _ => F.pinf
  | _, F.pinf => F.pinf
  | F.fin a, F.fin b => F.fin (max a b)

/-- The comparison `w >= 0.0` used by `WeightedIndex::new` to validate
each weight; it is `false` for NaN. -/
def F.geZero : F → Bool
  | F.fin q => decide (0 ≤ q)
  | F.pinf => true
  | _ => false

/-- Strict positivity of a weight (`WeightedIndex::sample` only ever
returns indices whose weight is positive). -/
def F.isPos : F → Bool
  | F.fin q => decide (0 < q)
  | F.pinf => true
  | _ => false

end Smarticles

namespace Smarticles

/-! ## Populations and evolution (`src/ai/batch.rs`, `src/ai/batch_training.rs`) -/

/-- A population of networks plus its generation counter. -/
structure Batch where
  networks : List Network
  generation : ℕ

/-- The error cases of `rand::distributions::WeightedIndex::new`. -/
inductive WeightedError where
  | noItem
  | invalidWeight
  | allWeightsZero
deriving DecidableEq, Repr

/-- Embeds `WeightedIndex::new`: fails on an empty weight list, on any
weight for which `w >= 0` is false (negative weights, NaN, `-inf`), and
when the total weight is zero.  On success the validated weights are
returned. -/
def weightedIndexNew (ws : List F) : Except WeightedError (List F) :=
  match ws with
  | [] => Except.error WeightedError.noItem
  | _ =>
    if ws.all F.geZero then
      if ws.foldl F.add (F.fin 0) = F.fin 0 then Except.error WeightedError.allWeightsZero
      else Except.ok ws
    else Except.error WeightedError.invalidWeight

/-- A model of `WeightedIndex::sample`, driven by the raw oracle value
`r`: it yields an index with positive weight, which is the guarantee
the source relies on (the division `w[i1]/(w[i1]+w[i2])` and the
`ranking[i]` lookups assume it). -/
def sampleModel (ws : List F) (r : ℕ) : ℕ :=
  let j := r % ws.length
  if F.isPos (ws.getD j (F.fin 0)) then j else ws.findIdx F.isPos

/-- The selection-weight vector built by `Batch::evolve` of
`src/ai/batch.rs`: `l` is `self.networks.len()`, the min/max
normalization window is the whole ranking, the third quarter of the
indices receives half the weight of index `l/2 - 1`, the last quarter
receives `0`. -/
def evolveWeightsB (l : ℕ) (ranking : List (ℕ × ℚ)) : List F :=
  let scores := ranking.map (fun e => e.2)
  let minS := scores.foldl (fun acc s => F.fmin acc (F.fin s)) F.pinf
  let maxS := scores.foldl (fun acc s => F.fmax acc (F.fin s)) F.ninf
  (List.range l).map fun i =>
    if i < l / 2 then
      F.div (F.sub (F.fin (ranking.getD i (0, 0)).2) minS) (F.sub maxS minS)
    else if i < 3 * l / 4 then
      F.div (F.mul (F.fin (1/2)) (F.sub (F.fin (ranking.getD (l / 2 - 1) (0, 0)).2) minS))
        (F.sub maxS minS)
    else
      F.fin 0

/-- The selection-weight vector built by `Batch::evolve` of
`src/ai/batch_training.rs`: here `l` is `ranking.len()` and the min/max
normalization window is only the first `l/2 + 1` ranking entries. -/
def evolveWeightsBT (ranking : List (ℕ × ℚ)) : List F :=
  let l := ranking.length
  let scores := (ranking.take (l / 2 + 1)).map (fun e => e.2)
  let minS := scores.foldl (fun acc s => F.fmin acc (F.fin s)) F.pinf
  let maxS := scores.foldl (fun acc s => F.fmax acc (F.fin s)) F.ninf
  (List.range l).map fun i =>
    if i < l / 2 then
      F.div (F.sub (F.fin (ranking.getD i (0, 0)).2) minS) (F.sub maxS minS)
    else if i < 3 * l / 4 then
      F.div (F.mul (F.fin (1/2)) (F.sub (F.fin (ranking.getD (l / 2 - 1) (0, 0)).2) minS))
        (F.sub maxS minS)
    else
      F.fin 0

/-- Embeds `Batch::evolve` of `src/ai/batch.rs`.  Randomness is
supplied by oracles: `sampleOracle` drives the weighted parent
sampling (two draws per child), `mutOracle` the mutation noise (two
possible mutate passes per child), `pickOracle` the crossover coins of
each child.  The `.unwrap()` on `WeightedIndex::new` panics on a
degenerate weight vector; this is modelled by returning `none`.  The
`while` loop pushes exactly one network per iteration until `l`
networks exist, which is embedded as a map over `List.range l`. -/
def evolve_b (batch : Batch) (ranking : List (ℕ × ℚ)) (mutation_rate : ℚ)
    (sampleOracle : ℕ → ℕ)
    (mutOracle : ℕ → ℕ → (ℕ → ℕ → ℚ) × (ℕ → ℕ → ℚ))
    (pickOracle : ℕ → ℕ → ℕ → ℕ → Bool × Bool) : Option Batch :=
  let l := batch.networks.length
  let weights := evolveWeightsB l ranking
  match weightedIndexNew weights with
  | Except.error _ => none
  | Except.ok ws =>
    let child : ℕ → Network := fun t =>
      let i1 := sampleModel ws (sampleOracle (2 * t))
      let i2 := sampleModel ws (sampleOracle (2 * t + 1))
      let new_network :=
        if i1 ≠ i2 then
          let network1 := batch.networks.getD (ranking.getD i1 (0, 0)).1 default
          let network2 := batch.networks.getD (ranking.getD i2 (0, 0)).1 default
          let w1 := ws.getD i1 (F.fin 0)
          let w2 := ws.getD i2 (F.fin 0)
          let p := F.div (F.mul (F.fin 0.99) w1) (F.add w1 w2)
          Network.crossover network1 network2 (match p with | F.fin q => q | _ => 0)
            (pickOracle t)
        else
          Network.mutate (batch.networks.getD (ranking.getD i1 (0, 0)).1 default)
            (mutOracle (2 * t))
      Network.mutate new_network (mutOracle (2 * t + 1))
    some { networks := (List.range l).map child, generation := batch.generation + 1 }

/-- Embeds `Batch::evolve` of `src/ai/batch_training.rs`: the entry
assertion requires the mutation rate to lie in `[0, 1]` (a panic,
modelled as `none`), `l` is `ranking.len()`, parents are always
combined with `average`, and a single mutate pass follows (its rate —
which also decays with the generation counter — only scales the
oracle-supplied noise). -/
def evolve_bt (batch : Batch) (mutation_rate : ℚ) (ranking : List (ℕ × ℚ))
    (sampleOracle : ℕ → ℕ)
    (mutOracle : ℕ → ℕ → (ℕ → ℕ → ℚ) × (ℕ → ℕ → ℚ)) : Option Batch :=
  if ¬ (0 ≤ mutation_rate ∧ mutation_rate ≤ 1) then none
  else
    let l := ranking.length
    let weights := evolveWeightsBT ranking
    match weightedIndexNew weights with
    | Except.error _ => none
    | Except.ok ws =>
      let child : ℕ → Network := fun t =>
        let i1 := (ranking.getD (sampleModel ws (sampleOracle (2 * t))) (0, 0)).1
        let i2 := (ranking.getD (sampleModel ws (sampleOracle (2 * t + 1))) (0, 0)).1
        let network1 := batch.networks.getD i1 default
        let network2 := batch.networks.getD i2 default
        Network.mutate (Network.average network1 network2) (mutOracle t)
      some { networks := (List.range l).map child, generation := batch.generation + 1 }

/-- Modelled from the claim: the selection-weight vector as the claim
describes it, with the min/max normalization window being the top half
(the first `l/2` entries) of the ranking. -/
def claimWeights (ranking : List (ℕ × ℚ)) : List F :=
  let l := ranking.length
  let scores := (ranking.take (l / 2)).map (fun e => e.2)
  let minS := scores.foldl (fun acc s => F.fmin acc (F.fin s)) F.pinf
  let maxS := scores.foldl (fun acc s => F.fmax acc (F.fin s)) F.ninf
  (List.range l).map fun i =>
    if i < l / 2 then
      F.div (F.sub (F.fin (ranking.getD i (0, 0)).2) minS) (F.sub maxS minS)
    else if i < 3 * l / 4 then
      F.div (F.mul (F.fin (1/2)) (F.sub (F.fin (ranking.getD (l / 2 - 1) (0, 0)).2) minS))
        (F.sub maxS minS)
    else
      F.fin 0

end Smarticles

namespace Smarticles

theorem cf_at_10 (power : ℚ) : compute_force 10 power = 0 := by
  simp [compute_force, FIRST_THRESHOLD, SECOND_THRESHOLD, INTERACTION_THRESHOLD]

theorem cf_at_22 (power : ℚ) : compute_force 22 power = power := by
  simp [compute_force, FIRST_THRESHOLD, SECOND_THRESHOLD, INTERACTION_THRESHOLD]
  norm_num

theorem cf_at_34 (power : ℚ) : compute_force 34 power = 0 := by
  norm_num [compute_force, FIRST_THRESHOLD, SECOND_THRESHOLD, INTERACTION_THRESHOLD]

theorem cf_eq_ref (power : ℚ) (d : ℚ) :
    compute_force d power = compute_force_ref d power := by
  simp only [compute_force, compute_force_ref, FIRST_THRESHOLD, SECOND_THRESHOLD,
    INTERACTION_THRESHOLD, PROXIMITY_POWER]
  norm_num
  split_ifs <;> ring

theorem cont_at_10 (power ε : ℚ) (hε : 0 < ε) :
    ∃ δ : ℚ, 0 < δ ∧ ∀ d : ℚ, |d - 10| < δ →
      |compute_force d power - compute_force 10 power| < ε := by
  refine ⟨min 12 (ε / (7 + |power|)), ?_, ?_⟩
  · have h7 : (0:ℚ) < 7 + |power| := by positivity
    positivity
  · intro d hd
    have h7 : (0:ℚ) < 7 + |power| := by positivity
    have hδ1 : |d - 10| < 12 := lt_of_lt_of_le hd (min_le_left _ _)
    have hδ2 : |d - 10| < ε / (7 + |power|) := lt_of_lt_of_le hd (min_le_right _ _)
    rw [cf_at_10, sub_zero]
    rw [abs_lt] at hδ1 hδ2
    have hP : (0:ℚ) ≤ |power| := abs_nonneg power
    have hple : power ≤ |power| := le_abs_self power
    have hpge : -|power| ≤ power := neg_abs_le power
    have hεδ : ε / (7 + |power|) * (7 + |power|) = ε := by field_simp
    by_cases h1 : d < 10
    · have : compute_force d power = (d / 10 - 1) * (-60) := by
        simp [compute_force, FIRST_THRESHOLD, PROXIMITY_POWER, h1]
      rw [this, abs_lt]
      constructor <;> nlinarith [hδ2.1, hδ2.2]
    · push_neg at h1
      have h2 : d < 22 := by linarith [hδ1.2]
      have : compute_force d power = (d / 12 - 10 / 12) * power := by
        simp only [compute_force, FIRST_THRESHOLD, SECOND_THRESHOLD]
        rw [if_neg (by linarith), if_pos (by norm_num; linarith)]
      rw [this, abs_lt]
      constructor <;> nlinarith [hδ2.1, hδ2.2, mul_le_mul_of_nonneg_left hple hP]

theorem cont_at_22 (power ε : ℚ) (hε : 0 < ε) :
    ∃ δ : ℚ, 0 < δ ∧ ∀ d : ℚ, |d - 22| < δ →
      |compute_force d power - compute_force 22 power| < ε := by
  refine ⟨min 12 (ε / (7 + |power|)), ?_, ?_⟩
  · have h7 : (0:ℚ) < 7 + |power| := by positivity
    positivity
  · intro d hd
    have h7 : (0:ℚ) < 7 + |power| := by positivity
    have hδ1 : |d - 22| < 12 := lt_of_lt_of_le hd (min_le_left _ _)
    have hδ2 : |d - 22| < ε / (7 + |power|) := lt_of_lt_of_le hd (min_le_right _ _)
    rw [cf_at_22]
    rw [abs_lt] at hδ1 hδ2
    have hP : (0:ℚ) ≤ |power| := abs_nonneg power
    have hple : power ≤ |power| := le_abs_self power
    have hpge : -|power| ≤ power := neg_abs_le power
    have hεδ : ε / (7 + |power|) * (7 + |power|) = ε := by field_simp
    by_cases h1 : d < 22
    · have h0 : ¬ d < 10 := by push_neg; linarith [hδ1.1]
      have : compute_force d power = (d / 12 - 10 / 12) * power := by
        simp only [compute_force, FIRST_THRESHOLD, SECOND_THRESHOLD]
        rw [if_neg h0, if_pos (by norm_num; linarith)]
      rw [this, abs_lt]
      constructor <;>
        nlinarith [hδ2.1, hδ2.2, mul_le_mul_of_nonneg_left hple hP,
          mul_le_mul_of_nonneg_left hpge hP]
    · push_neg at h1
      have h2 : d < 34 := by linarith [hδ1.2]
      have h0 : ¬ d < 10 := by push_neg; linarith
      have : compute_force d power = (-d / 12 + 10 / 12 + 2) * power := by
        simp only [compute_force, FIRST_THRESHOLD, SECOND_THRESHOLD, INTERACTION_THRESHOLD]
        rw [if_neg h0, if_neg (by push_neg; norm_num; linarith), if_pos (by norm_num; linarith)]
      rw [this, abs_lt]
      constructor <;>
        nlinarith [hδ2.1, hδ2.2, mul_le_mul_of_nonneg_left hple hP,
          mul_le_mul_of_nonneg_left hpge hP]

theorem cont_at_34 (power ε : ℚ) (hε : 0 < ε) :
    ∃ δ : ℚ, 0 < δ ∧ ∀ d : ℚ, |d - 34| < δ →
      |compute_force d power - compute_force 34 power| < ε := by
  refine ⟨min 12 (ε / (7 + |power|)), ?_, ?_⟩
  · have h7 : (0:ℚ) < 7 + |power| := by positivity
    positivity
  · intro d hd
    have h7 : (0:ℚ) < 7 + |power| := by positivity
    have hδ1 : |d - 34| < 12 := lt_of_lt_of_le hd (min_le_left _ _)
    have hδ2 : |d - 34| < ε / (7 + |power|) := lt_of_lt_of_le hd (min_le_right _ _)
    rw [cf_at_34, sub_zero]
    rw [abs_lt] at hδ1 hδ2
    have hP : (0:ℚ) ≤ |power| := abs_nonneg power
    have hple : power ≤ |power| := le_abs_self power
    have hpge : -|power| ≤ power := neg_abs_le power
    have hεδ : ε / (7 + |power|) * (7 + |power|) = ε := by field_simp
    by_cases h1 : d < 34
    · have h0 : ¬ d < 10 := by push_neg; linarith [hδ1.1]
      have h0' : ¬ d < 22 := by push_neg; linarith [hδ1.1]
      have : compute_force d power = (-d / 12 + 10 / 12 + 2) * power := by
        simp only [compute_force, FIRST_THRESHOLD, SECOND_THRESHOLD, INTERACTION_THRESHOLD]
        rw [if_neg h0, if_neg (by push_neg; norm_num; linarith), if_pos (by norm_num; linarith)]
      rw [this, abs_lt]
      constructor <;>
        nlinarith [hδ2.1, hδ2.2, mul_le_mul_of_nonneg_left hple hP,
          mul_le_mul_of_nonneg_left hpge hP]
    · push_neg at h1
      have : compute_force d power = 0 := by
        simp only [compute_force, FIRST_THRESHOLD, SECOND_THRESHOLD, INTERACTION_THRESHOLD]
        rw [if_neg (by push_neg; linarith), if_neg (by push_neg; norm_num; linarith),
          if_neg (by push_neg; norm_num; linarith)]
      rw [this]
      simpa using hε

/-- C3: for every power `p` and distance `d ≥ 0`, `compute_force d p`
equals the three-zone piecewise-linear reference (power-independent
repulsion from magnitude 60 at 0 down to 0 at `T1`; ramp 0 → `p`; ramp
`p` → 0; identically 0 from `T1+2·T2` on), and the force is continuous
(ε–δ) at the three zone boundaries for any fixed `p`. -/
theorem c3_compute_force_three_zones (power : ℚ) :
    (∀ d : ℚ, 0 ≤ d → compute_force d power = compute_force_ref d power) ∧
    (∀ T : ℚ,
      T = FIRST_THRESHOLD ∨ T = FIRST_THRESHOLD + SECOND_THRESHOLD ∨
        T = INTERACTION_THRESHOLD →
      ∀ ε : ℚ, 0 < ε → ∃ δ : ℚ, 0 < δ ∧ ∀ d : ℚ, |d - T| < δ →
        |compute_force d power - compute_force T power| < ε) := by
  constructor
  · intro d _
    exact cf_eq_ref power d
  · rintro T (rfl | rfl | rfl) ε hε
    · simpa only [show FIRST_THRESHOLD = (10:ℚ) by norm_num [FIRST_THRESHOLD]] using
        cont_at_10 power ε hε
    · simpa only [show FIRST_THRESHOLD + SECOND_THRESHOLD = (22:ℚ) by
        norm_num [FIRST_THRESHOLD, SECOND_THRESHOLD]] using cont_at_22 power ε hε
    · simpa only [show INTERACTION_THRESHOLD = (34:ℚ) by
        norm_num [INTERACTION_THRESHOLD, FIRST_THRESHOLD, SECOND_THRESHOLD]] using
        cont_at_34 power ε hε

/-- Witness for C3 at power `7`, distance `5`, boundary `T1`, `ε = 1`. -/
theorem c3_witness :
    compute_force 5 7 = compute_force_ref 5 7 ∧
    (∃ δ : ℚ, 0 < δ ∧ ∀ d : ℚ, |d - FIRST_THRESHOLD| < δ →
      |compute_force d 7 - compute_force FIRST_THRESHOLD 7| < 1) :=
  ⟨(c3_compute_force_three_zones 7).1 5 (by norm_num),
   (c3_compute_force_three_zones 7).2 FIRST_THRESHOLD (Or.inl rfl) 1 (by norm_num)⟩

end Smarticles

namespace Smarticles

/-- Lookup with the empty-list default, as used by
`get_neighboring_particles` (`filter_map` over `HashMap::get`). -/
def lookupD (m : List (Cell × List PIdx)) (k : Cell) : List PIdx :=
  (lookupCell m k).getD []

theorem lookupD_insertPush (m : List (Cell × List PIdx)) (k0 k : Cell) (idx : PIdx) :
    lookupD (insertPush m k0 idx) k
      = lookupD m k ++ (if k0 = k then [idx] else []) := by
  unfold insertPush lookupD lookupCell
  by_cases hany : m.any (fun e => e.1 = k0)
  · rw [if_pos hany, List.find?_map]
    have hpred : (fun e : Cell × List PIdx =>
        decide ((if e.1 = k0 then (e.1, e.2 ++ [idx]) else e).1 = k))
        = fun e : Cell × List PIdx => decide (e.1 = k) := by
      funext e
      by_cases h : e.1 = k0 <;> simp [h]
    by_cases hk : k0 = k
    · subst hk
      cases hf : m.find? (fun e => e.1 = k0) with
      | none =>
        exfalso
        rw [List.find?_eq_none] at hf
        rcases List.any_eq_true.mp hany with ⟨e, he, hek⟩
        exact hf e he hek
      | some e =>
        have hek : e.1 = k0 := by simpa using List.find?_some hf
        have : (fun e : Cell × List PIdx => decide (e.1 = k0)) ∘ (fun e : Cell × List PIdx =>
            if e.1 = k0 then (e.1, e.2 ++ [idx]) else e) = fun e => decide (e.1 = k0) := by
          funext e
          by_cases h : e.1 = k0 <;> simp [h]
        rw [show ((fun e : Cell × List PIdx => decide (e.1 = k0)) ∘ fun e =>
            if e.1 = k0 then (e.1, e.2 ++ [idx]) else e) = fun e => decide (e.1 = k0) from this]
        rw [hf]
        simp [hek]
    · cases hf : m.find? (fun e => e.1 = k) with
      | none =>
        have : (fun e : Cell × List PIdx => decide (e.1 = k)) ∘ (fun e : Cell × List PIdx =>
            if e.1 = k0 then (e.1, e.2 ++ [idx]) else e) = fun e => decide (e.1 = k) := by
          funext e
          by_cases h : e.1 = k0 <;> simp [h]
        rw [this, hf]
        simp [hk]
      | some e =>
        have hek : e.1 = k := by simpa using List.find?_some hf
        have : (fun e : Cell × List PIdx => decide (e.1 = k)) ∘ (fun e : Cell × List PIdx =>
            if e.1 = k0 then (e.1, e.2 ++ [idx]) else e) = fun e => decide (e.1 = k) := by
          funext e
          by_cases h : e.1 = k0 <;> simp [h]
        rw [this, hf]
        have hne : ¬ e.1 = k0 := by
          intro h
          exact hk (h ▸ hek ▸ rfl)
        simp [hk, hne]
  · rw [if_neg hany, List.find?_append]
    have hnone : ∀ e ∈ m, ¬ (e.1 = k0) := by
      intro e he
      intro h
      exact hany (List.any_eq_true.mpr ⟨e, he, by simpa using h⟩)
    by_cases hk : k0 = k
    · subst hk
      have hf : m.find? (fun e => e.1 = k0) = none :=
        List.find?_eq_none.mpr (by
          intro e he
          simpa using hnone e he)
      rw [hf]
      simp
    · cases hf : m.find? (fun e => e.1 = k) with
      | none => simp [hk]
      | some e => simp [hk]

theorem lookupD_retainClear (m : List (Cell × List PIdx)) (k : Cell) :
    lookupD (retainClear m) k = [] := by
  unfold lookupD lookupCell retainClear
  rw [List.find?_map]
  cases h : (m.filter fun e => ¬ e.2.isEmpty).find?
      ((fun e : Cell × List PIdx => decide (e.1 = k)) ∘ fun e => (e.1, ([] : List PIdx))) <;>
    simp

theorem lookupD_foldl_insertPush (keyOf : PIdx → Cell) (xs : List PIdx)
    (m : List (Cell × List PIdx)) (k : Cell) :
    lookupD (xs.foldl (fun m i => insertPush m (keyOf i) i) m) k
      = lookupD m k ++ xs.filter (fun i => keyOf i = k) := by
  induction xs generalizing m with
  | nil => simp
  | cons a rest ih =>
    rw [List.foldl_cons, ih, lookupD_insertPush, List.filter_cons]
    by_cases h : keyOf a = k <;> simp [h, List.append_assoc]

/-- After `organize_particles`, looking a cell up (with empty default)
returns exactly the active particles whose position falls in that cell,
in class-major order — independently of the incoming cell map. -/
theorem lookupD_organize (s : Simulation) (k : Cell) :
    lookupD (organize_particles s).cell_map k
      = (activeIndices s).filter
          (fun i => Cell.from_position (s.particle_positions i) = k) := by
  unfold organize_particles
  have := lookupD_foldl_insertPush
    (fun i => Cell.from_position (s.particle_positions i))
    (activeIndices s) (retainClear s.cell_map) k
  simpa [lookupD_retainClear] using this

/-- After `organize_particles`, the neighbor candidates of a cell are
the active particles of the 3×3 block, computed from the current
positions only. -/
theorem neighbors_organize (s : Simulation) (cell : Cell) :
    get_neighboring_particles (organize_particles s) cell
      = (Cell.get_neighbors cell).flatMap
          (fun k => (activeIndices s).filter
            (fun i => Cell.from_position (s.particle_positions i) = k)) := by
  unfold get_neighboring_particles
  congr 1
  funext k
  exact lookupD_organize s k

theorem mem_activeIndices (s : Simulation) (idx : PIdx) :
    idx ∈ activeIndices s ↔ idx.1 < CLASS_COUNT ∧ idx.2 < s.particle_counts idx.1 := by
  obtain ⟨c, p⟩ := idx
  unfold activeIndices
  simp only [List.mem_flatMap, List.mem_map, List.mem_range, Prod.mk.injEq]
  aesop

theorem foldl_updateFn (g : PIdx → Vec2) (xs : List PIdx) (base : PIdx → Vec2) (idx : PIdx) :
    (xs.foldl (fun f i => updateFn f i (g i)) base) idx
      = if idx ∈ xs then g idx else base idx := by
  induction xs generalizing base with
  | nil => simp
  | cons a rest ih =>
    rw [List.foldl_cons, ih]
    by_cases h : idx ∈ rest
    · simp [h]
    · by_cases ha : idx = a <;> simp [h, ha, updateFn]

theorem move_particles_positions (s : Simulation) (idx : PIdx) :
    (move_particles s).particle_positions idx
      = if idx ∈ activeIndices s then (particleUpdate (organize_particles s) idx).2
        else s.particle_positions idx := by
  show ((compute_positions (organize_particles s)).foldl
      (fun f u => updateFn f u.1 u.2.2) (organize_particles s).particle_positions) idx = _
  unfold compute_positions
  rw [List.foldl_map]
  have hact : activeIndices (organize_particles s) = activeIndices s := rfl
  rw [hact]
  exact foldl_updateFn (fun i => (particleUpdate (organize_particles s) i).2)
    (activeIndices s) s.particle_positions idx

theorem move_particles_prev (s : Simulation) (idx : PIdx) :
    (move_particles s).particle_prev_positions idx
      = if idx ∈ activeIndices s then s.particle_positions idx
        else s.particle_prev_positions idx := by
  show ((compute_positions (organize_particles s)).foldl
      (fun f u => updateFn f u.1 u.2.1) (organize_particles s).particle_prev_positions) idx = _
  unfold compute_positions
  rw [List.foldl_map]
  have hact : activeIndices (organize_particles s) = activeIndices s := rfl
  rw [hact]
  have h2 := foldl_updateFn (fun i => (particleUpdate (organize_particles s) i).1)
    (activeIndices s) s.particle_prev_positions idx
  exact h2.trans (by by_cases h : idx ∈ activeIndices s <;> simp [h, particleUpdate, organize_particles])

end Smarticles

namespace Smarticles

theorem Vec2.ext {a b : Vec2} (hx : a.x = b.x) (hy : a.y = b.y) : a = b := by
  cases a
  cases b
  simp_all

@[simp] theorem Vec2.scale_def (c : ℚ) (v : Vec2) :
    Vec2.scale c v = ⟨c * v.x, c * v.y⟩ := rfl

theorem foldl_add_shift (l : List Vec2) : ∀ v : Vec2,
    l.foldl (· + ·) v = v + l.foldl (· + ·) Vec2.zero := by
  induction l with
  | nil =>
    intro v
    apply Vec2.ext <;> simp [Vec2.zero]
  | cons a rest ih =>
    intro v
    rw [List.foldl_cons, ih (v + a), List.foldl_cons, ih (Vec2.zero + a)]
    apply Vec2.ext <;> simp [Vec2.zero] <;> ring

theorem vecSum_nil : vecSum [] = Vec2.zero := rfl

theorem vecSum_cons (x : Vec2) (l : List Vec2) : vecSum (x :: l) = x + vecSum l := by
  unfold vecSum
  rw [List.foldl_cons, foldl_add_shift]
  apply Vec2.ext <;> simp [Vec2.zero]

theorem foldl_sub_vecSum {α : Type} (h : α → Vec2) (xs : List α) : ∀ v : Vec2,
    xs.foldl (fun f q => f - h q) v = v - vecSum (xs.map h) := by
  induction xs with
  | nil =>
    intro v
    apply Vec2.ext <;> simp [vecSum_nil, Vec2.zero]
  | cons a rest ih =>
    intro v
    rw [List.foldl_cons, ih (v - h a), List.map_cons, vecSum_cons]
    apply Vec2.ext <;> simp <;> ring


/-- C2: for an active particle, one tick writes
`2·P − P_prev + F` into the position (with `F` the damping term plus
the negated scaled sum of the neighbor-candidate contributions) and
`P` into the previous position. -/
theorem c2_verlet_position_update (s : Simulation) (c p : ℕ)
    (hc : c < CLASS_COUNT) (hp : p < s.particle_counts c) :
    (move_particles s).particle_positions (c, p)
        = Vec2.scale 2 (s.particle_positions (c, p)) - s.particle_prev_positions (c, p)
          + net_force s (c, p) ∧
    (move_particles s).particle_prev_positions (c, p) = s.particle_positions (c, p) := by
  have hmem : ((c, p) : PIdx) ∈ activeIndices s :=
    (mem_activeIndices s (c, p)).mpr ⟨hc, hp⟩
  constructor
  · rw [move_particles_positions, if_pos hmem]
    show (particleUpdate (organize_particles s) (c, p)).2 = _
    unfold particleUpdate net_force
    dsimp only
    rw [foldl_sub_vecSum]
    apply Vec2.ext <;> simp [organize_particles, Vec2.zero] <;> ring
  · rw [move_particles_prev, if_pos hmem]


/-- A concrete one-particle state used by the C2 witness. -/
def c2WitnessState : Simulation :=
  { particle_counts := fun c => if c = 0 then 1 else 0
    power_matrix := fun _ _ => 5
    particle_prev_positions := fun _ => ⟨1, 1⟩
    particle_positions := fun _ => ⟨3, 4⟩
    cell_map := [] }

/-- Witness for C2 on a concrete one-particle state. -/
theorem c2_witness :
    (move_particles c2WitnessState).particle_positions (0, 0)
        = Vec2.scale 2 (c2WitnessState.particle_positions (0, 0))
          - c2WitnessState.particle_prev_positions (0, 0)
          + net_force c2WitnessState (0, 0) ∧
    (move_particles c2WitnessState).particle_prev_positions (0, 0)
        = c2WitnessState.particle_positions (0, 0) :=
  c2_verlet_position_update c2WitnessState 0 0 (by decide) (by decide)

/-- The per-particle read phase only depends on the counts, interaction
matrix, positions and previous positions of the pre-organize state —
never on the incoming cell map. -/
theorem particleUpdate_organize_congr (s t : Simulation)
    (h1 : s.particle_counts = t.particle_counts)
    (h2 : s.power_matrix = t.power_matrix)
    (h3 : s.particle_positions = t.particle_positions)
    (h4 : s.particle_prev_positions = t.particle_prev_positions)
    (idx : PIdx) :
    particleUpdate (organize_particles s) idx = particleUpdate (organize_particles t) idx := by
  have hn : ∀ cell, get_neighboring_particles (organize_particles s) cell
      = get_neighboring_particles (organize_particles t) cell := by
    intro cell
    rw [neighbors_organize, neighbors_organize]
    unfold activeIndices
    rw [h1, h3]
  unfold particleUpdate pairContribution
  dsimp only
  simp only [show (organize_particles s).particle_positions = s.particle_positions from rfl,
    show (organize_particles t).particle_positions = t.particle_positions from rfl,
    show (organize_particles s).particle_prev_positions = s.particle_prev_positions from rfl,
    show (organize_particles t).particle_prev_positions = t.particle_prev_positions from rfl,
    show (organize_particles s).power_matrix = s.power_matrix from rfl,
    show (organize_particles t).power_matrix = t.power_matrix from rfl,
    h2, h3, h4, hn]

/-- C1: a tick is a function of the start-of-tick snapshot (counts,
interaction matrix, positions, previous positions) alone — the stale
cell map never influences it — and it coincides with the naive
sequential reference that computes every new position from the
snapshot and then writes them all. -/
theorem c1_tick_reads_start_snapshot (s t : Simulation)
    (hc : s.particle_counts = t.particle_counts)
    (hw : s.power_matrix = t.power_matrix)
    (hp : s.particle_positions = t.particle_positions)
    (hq : s.particle_prev_positions = t.particle_prev_positions) :
    (∀ idx : PIdx,
      (move_particles s).particle_positions idx
          = (move_particles t).particle_positions idx ∧
      (move_particles s).particle_prev_positions idx
          = (move_particles t).particle_prev_positions idx) ∧
    (∀ idx : PIdx,
      (move_particles s).particle_positions idx
          = (naive_tick s).particle_positions idx ∧
      (move_particles s).particle_prev_positions idx
          = (naive_tick s).particle_prev_positions idx) := by
  have hact : activeIndices s = activeIndices t := by
    unfold activeIndices
    rw [hc]
  constructor
  · intro idx
    constructor
    · rw [move_particles_positions, move_particles_positions, ← hact]
      by_cases hmem : idx ∈ activeIndices s
      · rw [if_pos hmem, if_pos hmem]
        exact congrArg Prod.snd (particleUpdate_organize_congr s t hc hw hp hq idx)
      · rw [if_neg hmem, if_neg hmem]
        exact congrFun hp idx
    · rw [move_particles_prev, move_particles_prev, ← hact]
      by_cases hmem : idx ∈ activeIndices s
      · rw [if_pos hmem, if_pos hmem]
        exact congrFun hp idx
      · rw [if_neg hmem, if_neg hmem]
        exact congrFun hq idx
  · intro idx
    constructor
    · rw [move_particles_positions]
      show _ = if idx ∈ activeIndices s
          then (particleUpdate (organize_particles { s with cell_map := [] }) idx).2
          else s.particle_positions idx
      by_cases hmem : idx ∈ activeIndices s
      · rw [if_pos hmem, if_pos hmem]
        exact congrArg Prod.snd
          (particleUpdate_organize_congr s { s with cell_map := [] } rfl rfl rfl rfl idx)
      · rw [if_neg hmem, if_neg hmem]
    · rw [move_particles_prev]
      rfl

/-- A concrete one-particle state used by the C1 witness. -/
def c1WitnessState : Simulation :=
  { particle_counts := fun c => if c = 0 then 1 else 0
    power_matrix := fun _ _ => 5
    particle_prev_positions := fun _ => ⟨1, 1⟩
    particle_positions := fun _ => ⟨3, 4⟩
    cell_map := [] }

/-- Witness for C1: two concrete states agreeing on everything except
the incoming cell map. -/
theorem c1_witness :
    (∀ idx : PIdx,
      (move_particles c1WitnessState).particle_positions idx
          = (move_particles { c1WitnessState with cell_map := [((3, 7), [(0, 0)])] }).particle_positions idx ∧
      (move_particles c1WitnessState).particle_prev_positions idx
          = (move_particles { c1WitnessState with cell_map := [((3, 7), [(0, 0)])] }).particle_prev_positions idx) ∧
    (∀ idx : PIdx,
      (move_particles c1WitnessState).particle_positions idx
          = (naive_tick c1WitnessState).particle_positions idx ∧
      (move_particles c1WitnessState).particle_prev_positions idx
          = (naive_tick c1WitnessState).particle_prev_positions idx) :=
  c1_tick_reads_start_snapshot c1WitnessState
    { c1WitnessState with cell_map := [((3, 7), [(0, 0)])] } rfl rfl rfl rfl

end Smarticles

namespace Smarticles

theorem ratTrunc_nonneg_eq_floor {q : ℚ} (h : 0 ≤ q) : ratTrunc q = ⌊q⌋ := by
  rw [Rat.floor_def]
  unfold ratTrunc
  exact Int.tdiv_eq_ediv (Rat.num_nonneg.mpr h) (by positivity)

theorem ratTrunc_neg (q : ℚ) : ratTrunc (-q) = -ratTrunc q := by
  unfold ratTrunc
  rw [Rat.neg_num, Rat.neg_den, Int.neg_tdiv]

theorem ratTrunc_neg_eq_ceil {q : ℚ} (h : q ≤ 0) : ratTrunc q = ⌈q⌉ := by
  have h2 : ratTrunc q = - ratTrunc (-q) := by
    rw [ratTrunc_neg, neg_neg]
  rw [h2, ratTrunc_nonneg_eq_floor (by linarith), Int.floor_neg, neg_neg]

theorem ratTrunc_mono {q r : ℚ} (h : q ≤ r) : ratTrunc q ≤ ratTrunc r := by
  rcases le_or_lt 0 q with hq | hq
  · rw [ratTrunc_nonneg_eq_floor hq, ratTrunc_nonneg_eq_floor (le_trans hq h)]
    exact Int.floor_le_floor h
  · rcases le_or_lt 0 r with hr | hr
    · rw [ratTrunc_neg_eq_ceil (le_of_lt hq), ratTrunc_nonneg_eq_floor hr]
      calc ⌈q⌉ ≤ 0 := Int.ceil_le.mpr (by exact_mod_cast le_of_lt hq)
        _ ≤ ⌊r⌋ := Int.floor_nonneg.mpr hr
    · rw [ratTrunc_neg_eq_ceil (le_of_lt hq), ratTrunc_neg_eq_ceil (le_of_lt hr)]
      exact Int.ceil_le_ceil h

theorem ratTrunc_add_one_le (q : ℚ) : ratTrunc (q + 1) ≤ ratTrunc q + 1 := by
  rcases le_or_lt 0 q with hq | hq
  · rw [ratTrunc_nonneg_eq_floor hq, ratTrunc_nonneg_eq_floor (by linarith)]
    rw [show (q + 1 : ℚ) = q + (1 : ℤ) by push_cast; ring, Int.floor_add_int]
  · rcases le_or_lt (q + 1) 0 with hq1 | hq1
    · rw [ratTrunc_neg_eq_ceil (le_of_lt hq), ratTrunc_neg_eq_ceil hq1]
      rw [show (q + 1 : ℚ) = q + (1 : ℤ) by push_cast; ring, Int.ceil_add_int]
    · rw [ratTrunc_neg_eq_ceil (le_of_lt hq), ratTrunc_nonneg_eq_floor (le_of_lt hq1)]
      rw [show (q + 1 : ℚ) = q + (1 : ℤ) by push_cast; ring, Int.floor_add_int]
      have := Int.floor_le_ceil q
      omega

/-- Truncation toward zero maps rationals less than one unit apart to
integers at most one apart. -/
theorem ratTrunc_dist {u v : ℚ} (h : |u - v| < 1) : |ratTrunc u - ratTrunc v| ≤ 1 := by
  rw [abs_lt] at h
  rcases le_total u v with huv | huv
  · have h1 : ratTrunc u ≤ ratTrunc v := ratTrunc_mono huv
    have h2 : ratTrunc v ≤ ratTrunc u + 1 := by
      calc ratTrunc v ≤ ratTrunc (u + 1) := ratTrunc_mono (by linarith)
        _ ≤ ratTrunc u + 1 := ratTrunc_add_one_le u
    rw [abs_le]
    omega
  · have h1 : ratTrunc v ≤ ratTrunc u := ratTrunc_mono huv
    have h2 : ratTrunc u ≤ ratTrunc v + 1 := by
      calc ratTrunc u ≤ ratTrunc (v + 1) := ratTrunc_mono (by linarith)
        _ ≤ ratTrunc v + 1 := ratTrunc_add_one_le v
    rw [abs_le]
    omega

theorem mem_get_neighbors {C D : Cell} (hx : |D.1 - C.1| ≤ 1) (hy : |D.2 - C.2| ≤ 1) :
    D ∈ Cell.get_neighbors C := by
  obtain ⟨d1, d2⟩ := D
  obtain ⟨c1, c2⟩ := C
  simp only [Prod.fst, Prod.snd] at hx hy
  rw [abs_le] at hx hy
  have hx3 : d1 = c1 - 1 ∨ d1 = c1 ∨ d1 = c1 + 1 := by omega
  have hy3 : d2 = c2 - 1 ∨ d2 = c2 ∨ d2 = c2 + 1 := by omega
  unfold Cell.get_neighbors
  rcases hx3 with h1 | h1 | h1 <;> rcases hy3 with h2 | h2 | h2 <;> simp [h1, h2]

/-- C4 (amended): completeness of the neighbor candidates — after
`organize_particles`, every active particle whose (squared) distance to
a point `P` of cell `C` is within the interaction range appears among
the candidates returned for `C`. -/
theorem c4_amended_neighbor_completeness (s : Simulation) (C : Cell) (P : Vec2) (q : PIdx)
    (hq : q ∈ activeIndices s)
    (hP : Cell.from_position P = C)
    (hrange : dist2 P (s.particle_positions q) ≤ INTERACTION_THRESHOLD ^ 2) :
    q ∈ get_neighboring_particles (organize_particles s) C := by
  rw [neighbors_organize, List.mem_flatMap]
  refine ⟨Cell.from_position (s.particle_positions q), ?_, ?_⟩
  · set Q := s.particle_positions q with hQ
    have hIT : INTERACTION_THRESHOLD = (34 : ℚ) := by
      norm_num [INTERACTION_THRESHOLD, FIRST_THRESHOLD, SECOND_THRESHOLD]
    rw [hIT] at hrange
    unfold dist2 at hrange
    have hx : |P.x - Q.x| ≤ 34 := by
      rw [abs_le]
      constructor <;> nlinarith [sq_nonneg (P.y - Q.y), sq_nonneg (P.x - Q.x)]
    have hy : |P.y - Q.y| ≤ 34 := by
      rw [abs_le]
      constructor <;> nlinarith [sq_nonneg (P.y - Q.y), sq_nonneg (P.x - Q.x)]
    have hCS : CELL_SIZE = (341 / 10 : ℚ) := by
      norm_num [CELL_SIZE, INTERACTION_THRESHOLD, FIRST_THRESHOLD, SECOND_THRESHOLD]
    have hdx : |Q.x / CELL_SIZE - P.x / CELL_SIZE| < 1 := by
      rw [hCS, div_sub_div_same, abs_div, abs_of_pos (by norm_num : (0:ℚ) < 341/10),
        div_lt_one (by norm_num : (0:ℚ) < 341/10)]
      calc |Q.x - P.x| = |P.x - Q.x| := abs_sub_comm _ _
        _ ≤ 34 := hx
        _ < 341 / 10 := by norm_num
    have hdy : |Q.y / CELL_SIZE - P.y / CELL_SIZE| < 1 := by
      rw [hCS, div_sub_div_same, abs_div, abs_of_pos (by norm_num : (0:ℚ) < 341/10),
        div_lt_one (by norm_num : (0:ℚ) < 341/10)]
      calc |Q.y - P.y| = |P.y - Q.y| := abs_sub_comm _ _
        _ ≤ 34 := hy
        _ < 341 / 10 := by norm_num
    apply mem_get_neighbors
    · rw [← hP]
      exact ratTrunc_dist hdx
    · rw [← hP]
      exact ratTrunc_dist hdy
  · rw [List.mem_filter]
    exact ⟨hq, by simp⟩


/-- Concrete two-particle state for the C4 counterexample: particle
`(0,0)` sits at the origin (cell `(0,0)`), particle `(0,1)` sits at
`(35, 0)` (cell `(1,0)`), farther than the interaction range `34`. -/
def c4State : Simulation :=
  { particle_counts := fun c => if c = 0 then 2 else 0
    power_matrix := fun _ _ => 0
    particle_prev_positions := fun idx => if idx = ((0, 1) : PIdx) then ⟨35, 0⟩ else ⟨0, 0⟩
    particle_positions := fun idx => if idx = ((0, 1) : PIdx) then ⟨35, 0⟩ else ⟨0, 0⟩
    cell_map := [] }

/-- Counterexample to C4 as stated: particle `(0,1)` is returned among
the neighbor candidates of cell `(0,0)` although its distance to every
particle located in cell `(0,0)` exceeds the interaction range. -/
theorem c4_counterexample :
    (0, 1) ∈ get_neighboring_particles (organize_particles c4State) ((0, 0) : Cell) ∧
    ∀ i ∈ lookupD (organize_particles c4State).cell_map ((0, 0) : Cell),
      INTERACTION_THRESHOLD ^ 2
        < dist2 (c4State.particle_positions i) (c4State.particle_positions (0, 1)) := by
  with_unfolding_all decide

/-- Concrete state for the C4 witness: an active particle at `(30, 0)`,
within range of the origin. -/
def c4WitnessState : Simulation :=
  { particle_counts := fun c => if c = 0 then 1 else 0
    power_matrix := fun _ _ => 0
    particle_prev_positions := fun _ => ⟨30, 0⟩
    particle_positions := fun _ => ⟨30, 0⟩
    cell_map := [] }

/-- Witness for the amended C4 on a concrete state. -/
theorem c4_amended_witness :
    (0, 0) ∈ get_neighboring_particles (organize_particles c4WitnessState) ((0, 0) : Cell) :=
  c4_amended_neighbor_completeness c4WitnessState ((0, 0) : Cell) ⟨0, 0⟩ (0, 0)
    (by with_unfolding_all decide)
    (by with_unfolding_all decide)
    (by with_unfolding_all decide)

end Smarticles

namespace Smarticles

theorem activeIndices_nodup (s : Simulation) : (activeIndices s).Nodup := by
  unfold activeIndices
  rw [List.nodup_flatMap]
  constructor
  · intro c _
    exact (List.nodup_range _).map fun a b h => by
      simpa using congrArg Prod.snd h
  · have hlt : List.Pairwise (· < ·) (List.range CLASS_COUNT) := List.pairwise_lt_range _
    apply hlt.imp
    intro a b hab
    intro x hx hy
    rcases List.mem_map.mp hx with ⟨p, _, rfl⟩
    rcases List.mem_map.mp hy with ⟨p2, _, h2⟩
    have : b = a := congrArg Prod.fst h2
    omega

/-- Total number of occurrences of a particle identifier across all the
cell lists of a map. -/
def countAll (m : List (Cell × List PIdx)) (idx : PIdx) : ℕ :=
  (m.map (fun e => e.2.count idx)).sum

theorem insertPush_cons_ne {e : Cell × List PIdx} {rest : List (Cell × List PIdx)}
    {k : Cell} {i : PIdx} (h : ¬ e.1 = k) :
    insertPush (e :: rest) k i = e :: insertPush rest k i := by
  unfold insertPush
  by_cases hany : rest.any (fun x => x.1 = k)
  · rw [if_pos (by simp [List.any_cons, hany]), if_pos hany, List.map_cons, if_neg h]
  · rw [if_neg (by simp [List.any_cons, hany, h]), if_neg hany, List.cons_append]

theorem countAll_insertPush (m : List (Cell × List PIdx)) (k : Cell) (i idx : PIdx)
    (hkeys : (m.map Prod.fst).Nodup) :
    countAll (insertPush m k i) idx = countAll m idx + (if i = idx then 1 else 0) := by
  induction m with
  | nil =>
    unfold insertPush countAll
    by_cases hi : i = idx <;> simp [hi, List.count_cons]
  | cons e rest ih =>
    rw [List.map_cons, List.nodup_cons] at hkeys
    by_cases he : e.1 = k
    · have hanytrue : (e :: rest).any (fun x => x.1 = k) = true := by
        simp [List.any_cons, he]
      have hrestmap : rest.map (fun x => if x.1 = k then (x.1, x.2 ++ [i]) else x) = rest := by
        conv_rhs => rw [← List.map_id rest]
        apply List.map_congr_left
        intro x hx
        have hxk : ¬ x.1 = k := by
          intro hxe
          apply hkeys.1
          rw [he, ← hxe]
          exact List.mem_map_of_mem Prod.fst hx
        simp [hxk]
      unfold insertPush
      rw [if_pos hanytrue, List.map_cons, if_pos he, hrestmap]
      unfold countAll
      rw [List.map_cons, List.sum_cons, List.map_cons, List.sum_cons, List.count_append]
      have hsingle : List.count idx [i] = if i = idx then 1 else 0 := by
        by_cases hi : i = idx <;> simp [hi, List.count_cons, eq_comm]
      omega
    · rw [insertPush_cons_ne he]
      unfold countAll at ih ⊢
      rw [List.map_cons, List.sum_cons, List.map_cons, List.sum_cons, ih hkeys.2]
      omega

theorem keys_nodup_insertPush (m : List (Cell × List PIdx)) (k : Cell) (i : PIdx)
    (h : (m.map Prod.fst).Nodup) : ((insertPush m k i).map Prod.fst).Nodup := by
  unfold insertPush
  by_cases hany : m.any (fun e => e.1 = k)
  · rw [if_pos hany]
    have hkeys : (m.map (fun e => if e.1 = k then (e.1, e.2 ++ [i]) else e)).map Prod.fst
        = m.map Prod.fst := by
      rw [List.map_map]
      apply List.map_congr_left
      intro x _
      by_cases hxk : x.1 = k <;> simp [hxk]
    rw [hkeys]
    exact h
  · rw [if_neg hany, List.map_append]
    rw [List.nodup_append]
    refine ⟨h, by simp, ?_⟩
    intro x hx
    rcases List.mem_map.mp hx with ⟨e, he, rfl⟩
    simp only [List.map_cons, List.map_nil, List.mem_cons, List.not_mem_nil, or_false]
    intro hek
    exact hany (List.any_eq_true.mpr ⟨e, he, by simpa using hek⟩)

theorem countAll_retainClear (m : List (Cell × List PIdx)) (idx : PIdx) :
    countAll (retainClear m) idx = 0 := by
  unfold countAll retainClear
  rw [List.map_map]
  apply List.sum_eq_zero
  intro x hx
  rcases List.mem_map.mp hx with ⟨e, _, rfl⟩
  simp

theorem countAll_foldl (keyOf : PIdx → Cell) (xs : List PIdx) (idx : PIdx) :
    ∀ m : List (Cell × List PIdx), (m.map Prod.fst).Nodup →
    countAll (xs.foldl (fun m i => insertPush m (keyOf i) i) m) idx
      = countAll m idx + xs.count idx := by
  induction xs with
  | nil => simp
  | cons a rest ih =>
    intro m hm
    rw [List.foldl_cons, ih _ (keys_nodup_insertPush _ _ _ hm),
      countAll_insertPush _ _ _ _ hm, List.count_cons]
    by_cases h : a = idx <;> simp [h, beq_iff_eq] <;> omega


theorem mem_insertPush {m : List (Cell × List PIdx)} {k : Cell} {i : PIdx}
    {e : Cell × List PIdx} (he : e ∈ insertPush m k i) :
    e ∈ m ∨ (∃ e0 ∈ m, e0.1 = k ∧ e = (e0.1, e0.2 ++ [i])) ∨ e = (k, [i]) := by
  unfold insertPush at he
  by_cases hany : m.any (fun x => x.1 = k)
  · rw [if_pos hany] at he
    rcases List.mem_map.mp he with ⟨e0, he0, rfl⟩
    by_cases h : e0.1 = k
    · exact Or.inr (Or.inl ⟨e0, he0, h, by simp [h]⟩)
    · exact Or.inl (by simpa [h] using he0)
  · rw [if_neg hany] at he
    rcases List.mem_append.mp he with h | h
    · exact Or.inl h
    · exact Or.inr (Or.inr (by simpa using h))

theorem foldl_insertPush_entry_origin (keyOf : PIdx → Cell) (xs : List PIdx) :
    ∀ m : List (Cell × List PIdx), ∀ e ∈ xs.foldl (fun m i => insertPush m (keyOf i) i) m,
      e.2 = [] → e ∈ m := by
  induction xs with
  | nil =>
    intro m e he _
    simpa using he
  | cons a rest ih =>
    intro m e he hnil
    have h2 : e ∈ insertPush m (keyOf a) a := ih _ e (by simpa using he) hnil
    rcases mem_insertPush h2 with h | ⟨e0, _, _, rfl⟩ | rfl
    · exact h
    · simp at hnil
    · simp at hnil

theorem foldl_insertPush_entries_sound (keyOf : PIdx → Cell) (P : PIdx → Cell → Prop)
    (xs : List PIdx) :
    ∀ m : List (Cell × List PIdx),
      (∀ e ∈ m, ∀ i ∈ e.2, P i e.1) → (∀ i ∈ xs, P i (keyOf i)) →
      ∀ e ∈ xs.foldl (fun m i => insertPush m (keyOf i) i) m, ∀ i ∈ e.2, P i e.1 := by
  induction xs with
  | nil =>
    intro m hm _ e he
    exact hm e (by simpa using he)
  | cons a rest ih =>
    intro m hm hxs e he
    refine ih _ ?_ (fun i hi => hxs i (List.mem_cons_of_mem a hi)) e (by simpa using he)
    intro e1 he1 i hi
    rcases mem_insertPush he1 with h | ⟨e0, he0, hk, rfl⟩ | rfl
    · exact hm e1 h i hi
    · rcases List.mem_append.mp hi with h | h
      · exact hm e0 he0 i h
      · have : i = a := by simpa using h
        subst this
        rw [hk]
        exact hxs _ (List.mem_cons_self _ _)
    · have : i = a := by simpa using hi
      subst this
      exact hxs _ (List.mem_cons_self _ _)

theorem mem_retainClear {m : List (Cell × List PIdx)} {e : Cell × List PIdx}
    (he : e ∈ retainClear m) : e.2 = [] ∧ ∃ v, v ≠ [] ∧ (e.1, v) ∈ m := by
  unfold retainClear at he
  rcases List.mem_map.mp he with ⟨e0, he0, rfl⟩
  rcases List.mem_filter.mp he0 with ⟨hmem, hne⟩
  refine ⟨rfl, e0.2, ?_, hmem⟩
  simpa [List.isEmpty_iff] using hne

theorem keys_nodup_retainClear (m : List (Cell × List PIdx))
    (h : (m.map Prod.fst).Nodup) : ((retainClear m).map Prod.fst).Nodup := by
  unfold retainClear
  rw [List.map_map]
  have : ((m.filter fun e => ¬ e.2.isEmpty).map (Prod.fst ∘ fun e => (e.1, ([] : List PIdx))))
      = (m.filter fun e => ¬ e.2.isEmpty).map Prod.fst := by
    apply List.map_congr_left
    intro x _
    rfl
  rw [this]
  exact List.Nodup.sublist ((List.filter_sublist m).map Prod.fst) h


/-- C5 (amended): after `organize_particles` (given the HashMap key
invariant: no duplicate keys), every active particle appears in exactly
one cell list — the list of the cell derived from its current position;
every listed identifier is an active particle listed under its own cell
(no stale identifier persists); entries that were empty before the
rebuild are dropped, and an empty entry can remain only for a cell that
held particles before the rebuild. -/
theorem count_one_of_nodup_mem {l : List PIdx} {a : PIdx} (d : l.Nodup) (h : a ∈ l) :
    l.count a = 1 := by
  induction l with
  | nil => simp at h
  | cons b rest ih =>
    rw [List.nodup_cons] at d
    rw [List.count_cons]
    rcases List.mem_cons.mp h with rfl | hmem
    · have hz : rest.count a = 0 := List.count_eq_zero.mpr d.1
      simp [hz]
    · have hne : ¬ a = b := fun hh => d.1 (hh ▸ hmem)
      rw [ih d.2 hmem]
      have hne2 : ¬ b = a := fun hh => hne hh.symm
      simp [hne2]

theorem c5_amended_organize_partition (s : Simulation)
    (hkeys : (s.cell_map.map Prod.fst).Nodup) :
    (∀ idx ∈ activeIndices s,
      countAll (organize_particles s).cell_map idx = 1 ∧
      idx ∈ lookupD (organize_particles s).cell_map
        (Cell.from_position (s.particle_positions idx))) ∧
    (∀ e ∈ (organize_particles s).cell_map, ∀ i ∈ e.2,
      i ∈ activeIndices s ∧ Cell.from_position (s.particle_positions i) = e.1) ∧
    (∀ k : Cell, ((k, ([] : List PIdx)) ∈ (organize_particles s).cell_map) →
      ∃ v, v ≠ [] ∧ (k, v) ∈ s.cell_map) := by
  refine ⟨?_, ?_, ?_⟩
  · intro idx hidx
    constructor
    · show countAll ((activeIndices s).foldl
        (fun m i => insertPush m (Cell.from_position (s.particle_positions i)) i)
        (retainClear s.cell_map)) idx = 1
      rw [countAll_foldl _ _ _ _ (keys_nodup_retainClear _ hkeys), countAll_retainClear]
      have hone := count_one_of_nodup_mem (activeIndices_nodup s) hidx
      omega
    · rw [lookupD_organize, List.mem_filter]
      exact ⟨hidx, by simp⟩
  · intro e he i hi
    refine foldl_insertPush_entries_sound
      (fun i => Cell.from_position (s.particle_positions i))
      (fun i k => i ∈ activeIndices s ∧ Cell.from_position (s.particle_positions i) = k)
      (activeIndices s) (retainClear s.cell_map) ?_ (fun i hi => ⟨hi, rfl⟩) e he i hi
    intro e1 he1 i1 hi1
    exact absurd hi1 (by simp [(mem_retainClear he1).1])
  · intro k hk
    have := foldl_insertPush_entry_origin
      (fun i => Cell.from_position (s.particle_positions i))
      (activeIndices s) (retainClear s.cell_map) (k, []) hk rfl
    exact (mem_retainClear this).2

/-- Concrete state for the C5 counterexample: particles `(0,0)` and
`(0,1)` sit together just left of the cell boundary `x = 34.1`, and a
third particle `(0,2)` of the same (self-attracting, power 100) class
pulls them across it in one tick, emptying cell `(0,0)`. -/
def c5State : Simulation :=
  { particle_counts := fun c => if c = 0 then 3 else 0
    power_matrix := fun i j => if i = 0 ∧ j = 0 then 100 else 0
    particle_prev_positions := fun idx =>
      if idx = ((0, 2) : PIdx) then ⟨55.95, 0⟩ else if idx.1 = 0 ∧ idx.2 < 2 then ⟨34.05, 0⟩
      else ⟨0, 0⟩
    particle_positions := fun idx =>
      if idx = ((0, 2) : PIdx) then ⟨55.95, 0⟩ else if idx.1 = 0 ∧ idx.2 < 2 then ⟨34.05, 0⟩
      else ⟨0, 0⟩
    cell_map := [] }

/-- Counterexample to C5 as stated: after the `organize_particles` run
inside the second `move_particles`, the cell map still holds the entry
of cell `(0,0)` — now with an empty list, because its two occupants
moved to cell `(1,0)` during the first tick. -/
theorem c5_counterexample :
    (((0, 0) : Cell), ([] : List PIdx))
      ∈ (move_particles (move_particles c5State)).cell_map := by
  with_unfolding_all decide

/-- Concrete state for the C5 witness. -/
def c5WitnessState : Simulation :=
  { particle_counts := fun c => if c = 0 then 2 else 0
    power_matrix := fun _ _ => 0
    particle_prev_positions := fun idx => if idx = ((0, 1) : PIdx) then ⟨40, 3⟩ else ⟨1, 2⟩
    particle_positions := fun idx => if idx = ((0, 1) : PIdx) then ⟨40, 3⟩ else ⟨1, 2⟩
    cell_map := [((5, 5), [(0, 0)]), ((9, 9), [])] }

/-- Witness for the amended C5 on a concrete state with a nonempty,
duplicate-free incoming cell map. -/
theorem c5_amended_witness :
    countAll (organize_particles c5WitnessState).cell_map (0, 1) = 1 ∧
    ((0, 1) : PIdx) ∈ lookupD (organize_particles c5WitnessState).cell_map
      (Cell.from_position (c5WitnessState.particle_positions (0, 1))) :=
  (c5_amended_organize_partition c5WitnessState (by with_unfolding_all decide)).1 (0, 1)
    (by with_unfolding_all decide)

end Smarticles

namespace Smarticles

theorem vec2_zero_length : (Vec2.mk 0 0).length = 0 := by
  with_unfolding_all decide

theorem vecSum_zero_of_all {l : List Vec2} (h : ∀ v ∈ l, v = Vec2.zero) :
    vecSum l = Vec2.zero := by
  induction l with
  | nil => rfl
  | cons a rest ih =>
    rw [vecSum_cons, h a (List.mem_cons_self _ _), ih (fun v hv => h v (List.mem_cons_of_mem _ hv))]
    apply Vec2.ext <;> simp [Vec2.zero]

theorem compute_force_zero_power {r : ℚ} (h : FIRST_THRESHOLD ≤ r) :
    compute_force r 0 = 0 := by
  unfold compute_force
  rw [if_neg (not_lt.mpr h)]
  split_ifs <;> ring

theorem scale_zero_vec (c : ℚ) : Vec2.scale c (Vec2.mk 0 0) = Vec2.mk 0 0 := by
  apply Vec2.ext <;> simp

/-- With a zero interaction matrix and every active pair either
coincident or at (model) distance at least `FIRST_THRESHOLD`, a single
tick leaves every position unchanged. -/
theorem zero_force_step (s : Simulation)
    (hpow : ∀ i j, s.power_matrix i j = 0)
    (hprev : ∀ idx ∈ activeIndices s, s.particle_prev_positions idx = s.particle_positions idx)
    (hpairs : ∀ idx1 ∈ activeIndices s, ∀ idx2 ∈ activeIndices s,
      s.particle_positions idx2 = s.particle_positions idx1 ∨
      FIRST_THRESHOLD ≤ (s.particle_positions idx2 - s.particle_positions idx1).length) :
    (∀ idx, (move_particles s).particle_positions idx = s.particle_positions idx) ∧
    (∀ idx ∈ activeIndices s,
      (move_particles s).particle_prev_positions idx = s.particle_positions idx) := by
  have hcontrib : ∀ idx ∈ activeIndices s,
      ∀ q ∈ get_neighboring_particles (organize_particles s)
        (Cell.from_position (s.particle_positions idx)),
      pairContribution (organize_particles s) idx.1 (s.particle_positions idx) q
        = Vec2.mk 0 0 := by
    intro idx hmem q hq
    rw [neighbors_organize] at hq
    rcases List.mem_flatMap.mp hq with ⟨k, _, hq2⟩
    have hqact : q ∈ activeIndices s := (List.mem_filter.mp hq2).1
    unfold pairContribution
    dsimp only
    have hpow0 : ((- (organize_particles s).power_matrix idx.1 q.1 : ℤ) : ℚ) = 0 := by
      show ((- s.power_matrix idx.1 q.1 : ℤ) : ℚ) = 0
      rw [hpow]
      simp
    rw [hpow0]
    rcases hpairs idx hmem q hqact with heq | hfar
    · have hd : (organize_particles s).particle_positions q - s.particle_positions idx
          = Vec2.mk 0 0 := by
        show s.particle_positions q - s.particle_positions idx = Vec2.mk 0 0
        rw [heq]
        apply Vec2.ext <;> simp
      rw [hd]
      unfold Vec2.normalized
      rw [if_pos (le_of_eq vec2_zero_length)]
      exact scale_zero_vec _
    · have hcf : compute_force
          ((organize_particles s).particle_positions q - s.particle_positions idx).length 0
          = 0 := compute_force_zero_power hfar
      rw [hcf]
      rw [zero_mul]
      apply Vec2.ext <;> simp
  constructor
  · intro idx
    rw [move_particles_positions]
    by_cases hmem : idx ∈ activeIndices s
    · rw [if_pos hmem]
      show (particleUpdate (organize_particles s) idx).2 = s.particle_positions idx
      unfold particleUpdate
      dsimp only
      rw [foldl_sub_vecSum]
      have hsum : vecSum ((get_neighboring_particles (organize_particles s)
          (Cell.from_position ((organize_particles s).particle_positions idx))).map
            (pairContribution (organize_particles s) idx.1
              ((organize_particles s).particle_positions idx))) = Vec2.zero := by
        apply vecSum_zero_of_all
        intro v hv
        rcases List.mem_map.mp hv with ⟨q, hq, rfl⟩
        exact hcontrib idx hmem q hq
      rw [hsum]
      have hprev2 : (organize_particles s).particle_prev_positions idx
          = s.particle_positions idx := hprev idx hmem
      rw [hprev2,
        show (organize_particles s).particle_positions idx = s.particle_positions idx from rfl]
      apply Vec2.ext <;> simp [Vec2.zero] <;> ring
    · rw [if_neg hmem]
  · intro idx hmem
    rw [move_particles_prev, if_pos hmem]


/-- C9 (amended): in the 2-class, 4-particles-per-class scenario with a
zero interaction matrix, if additionally every pair of active particles
spawns either at exactly the same position or at distance at least
`FIRST_THRESHOLD` (outside the power-independent proximity-repulsion
zone), then after up to 10 ticks every particle is exactly at its spawn
position. -/
theorem c9_amended_zero_matrix_fixed (s : Simulation)
    (hcounts : s.particle_counts = fun c => if c < 2 then 4 else 0)
    (hpow : ∀ i j, s.power_matrix i j = 0)
    (hprev : ∀ idx ∈ activeIndices s, s.particle_prev_positions idx = s.particle_positions idx)
    (hpairs : ∀ idx1 ∈ activeIndices s, ∀ idx2 ∈ activeIndices s,
      s.particle_positions idx2 = s.particle_positions idx1 ∨
      FIRST_THRESHOLD ≤ (s.particle_positions idx2 - s.particle_positions idx1).length) :
    ∀ n ≤ 10, ∀ idx : PIdx,
      (Nat.iterate move_particles n s).particle_positions idx
        = s.particle_positions idx := by
  suffices h : ∀ n : ℕ,
      (∀ idx, (Nat.iterate move_particles n s).particle_positions idx
        = s.particle_positions idx) ∧
      (∀ idx ∈ activeIndices s,
        (Nat.iterate move_particles n s).particle_prev_positions idx
          = s.particle_positions idx) ∧
      (Nat.iterate move_particles n s).particle_counts = s.particle_counts ∧
      (Nat.iterate move_particles n s).power_matrix = s.power_matrix by
    intro n _ idx
    exact (h n).1 idx
  intro n
  induction n with
  | zero => exact ⟨fun _ => rfl, fun _ _ => hprev _ ‹_›, rfl, rfl⟩
  | succ n ih =>
    obtain ⟨hpos_n, hprev_n, hcnt_n, hpow_n⟩ := ih
    have hact_t : activeIndices (Nat.iterate move_particles n s) = activeIndices s := by
      unfold activeIndices
      rw [hcnt_n]
    have hstep := zero_force_step (Nat.iterate move_particles n s)
      (fun i j => by rw [hpow_n]; exact hpow i j)
      (by
        intro idx hmem
        rw [hact_t] at hmem
        rw [hprev_n idx hmem, hpos_n idx])
      (by
        intro idx1 h1 idx2 h2
        rw [hact_t] at h1 h2
        rw [hpos_n idx1, hpos_n idx2]
        exact hpairs idx1 h1 idx2 h2)
    rw [Function.iterate_succ_apply']
    refine ⟨?_, ?_, ?_, ?_⟩
    · intro idx
      rw [hstep.1 idx, hpos_n idx]
    · intro idx hmem
      have hmem_t : idx ∈ activeIndices (Nat.iterate move_particles n s) := by
        rw [hact_t]
        exact hmem
      rw [hstep.2 idx hmem_t, hpos_n idx]
    · rw [show (move_particles (Nat.iterate move_particles n s)).particle_counts
          = (Nat.iterate move_particles n s).particle_counts from rfl, hcnt_n]
    · rw [show (move_particles (Nat.iterate move_particles n s)).power_matrix
          = (Nat.iterate move_particles n s).power_matrix from rfl, hpow_n]

/-- Concrete all-coincident spawn used by the C9 witness. -/
def c9WitnessState : Simulation :=
  { particle_counts := fun c => if c < 2 then 4 else 0
    power_matrix := fun _ _ => 0
    particle_prev_positions := fun _ => ⟨0, 0⟩
    particle_positions := fun _ => ⟨0, 0⟩
    cell_map := [] }

/-- Witness for the amended C9: ten ticks on a concrete coincident
spawn keep particle `(0,0)` at its spawn position. -/
theorem c9_amended_witness :
    (Nat.iterate move_particles 10 c9WitnessState).particle_positions (0, 0)
      = c9WitnessState.particle_positions (0, 0) :=
  c9_amended_zero_matrix_fixed c9WitnessState rfl (fun _ _ => rfl) (fun _ _ => rfl)
    (fun _ _ _ _ => Or.inl rfl) 10 (by norm_num) (0, 0)

/-- Concrete spawn outcome for the C9 counterexample: 2 classes with 4
particles each, zero interaction matrix, previous = current positions
(the spawn postcondition); the class-0 particles sit at the origin and
the class-1 particles at `(5, 0)`, inside the proximity-repulsion zone. -/
def c9CounterState : Simulation :=
  { particle_counts := fun c => if c < 2 then 4 else 0
    power_matrix := fun _ _ => 0
    particle_prev_positions := fun idx => if idx.1 = 0 then ⟨0, 0⟩ else ⟨5, 0⟩
    particle_positions := fun idx => if idx.1 = 0 then ⟨0, 0⟩ else ⟨5, 0⟩
    cell_map := [] }

set_option maxRecDepth 100000 in
set_option maxHeartbeats 10000000 in
/-- Counterexample to C9 as stated: with a zero interaction matrix the
power-independent proximity repulsion still acts below
`FIRST_THRESHOLD`, so after 10 ticks particle `(0,0)` has left its
spawn position. -/
theorem c9_counterexample :
    ¬ (Nat.iterate move_particles 10 c9CounterState).particle_positions (0, 0)
        = c9CounterState.particle_positions (0, 0) := by
  with_unfolding_all decide

end Smarticles

namespace Smarticles

instance : Inhabited Layer :=
  ⟨⟨0, 0, ⟨0, 0, fun _ _ => 0⟩, ⟨0, 0, fun _ _ => 0⟩, ActivationFn.relu⟩⟩

/-- Equality of all topology-relevant layer data: sizes, activation
tag, and the dimensions of the weight matrix and bias vector. -/
def layerShapeEq (L1 L2 : Layer) : Prop :=
  L1.input_size = L2.input_size ∧ L1.output_size = L2.output_size ∧
  L1.activation_fn = L2.activation_fn ∧
  L1.weights.num_rows = L2.weights.num_rows ∧
  L1.weights.num_columns = L2.weights.num_columns ∧
  L1.biases.num_rows = L2.biases.num_rows ∧
  L1.biases.num_columns = L2.biases.num_columns

instance (L1 L2 : Layer) : Decidable (layerShapeEq L1 L2) := by
  unfold layerShapeEq
  infer_instance

/-- Identical topology of two networks: same number of layers and
layerwise equal shapes. -/
def sameTopology (a b : Network) : Prop :=
  a.layers.length = b.layers.length ∧
  ∀ i < a.layers.length, layerShapeEq (a.layers.getD i default) (b.layers.getD i default)

instance (a b : Network) : Decidable (sameTopology a b) := by
  unfold sameTopology
  infer_instance

theorem enum_map_sameTopology (f : ℕ × Layer → Layer)
    (hf : ∀ iL : ℕ × Layer, layerShapeEq (f iL) iL.2) (l : List Layer) :
    sameTopology ⟨l.enum.map f⟩ ⟨l⟩ := by
  have hlen : (l.enum.map f).length = l.length := by
    rw [List.length_map, List.enum_length]
  refine ⟨hlen, ?_⟩
  intro i hi
  rw [show (Network.mk (l.enum.map f)).layers = l.enum.map f from rfl, hlen] at hi
  show layerShapeEq ((l.enum.map f).getD i default) (l.getD i default)
  have h1 : (l.enum.map f).getD i default = f (i, l.get ⟨i, hi⟩) := by
    rw [List.getD_eq_getElem _ _ (by rw [hlen]; exact hi)]
    rw [List.getElem_map, List.getElem_enum]
    rfl
  have h2 : l.getD i default = l.get ⟨i, hi⟩ := by
    rw [List.getD_eq_getElem _ _ hi]
    rfl
  rw [h1, h2]
  exact hf (i, l.get ⟨i, hi⟩)

/-- C10: `mutate`, `average` and `crossover` preserve the network
topology — the layer count and, for every layer, its input size,
output size, activation tag, and the dimensions of its weight matrix
and bias vector. -/
theorem c10_operators_preserve_topology :
    (∀ (net : Network) (noise : ℕ → (ℕ → ℕ → ℚ) × (ℕ → ℕ → ℚ)),
      sameTopology (Network.mutate net noise) net) ∧
    (∀ (a b : Network), sameTopology a b →
      ∀ (sp : ℚ) (pick : ℕ → ℕ → ℕ → Bool × Bool),
        sameTopology (Network.crossover a b sp pick) a) ∧
    (∀ (a b : Network), sameTopology a b → sameTopology (Network.average a b) a) := by
  refine ⟨?_, ?_, ?_⟩
  · intro net noise
    refine enum_map_sameTopology _ ?_ net.layers
    intro iL
    simp [layerShapeEq, Mat2D.add, Mat2D.random]
  · intro a b _ sp pick
    refine enum_map_sameTopology _ ?_ a.layers
    intro iL
    simp [layerShapeEq]
  · intro a b _
    refine enum_map_sameTopology _ ?_ a.layers
    intro iL
    simp [layerShapeEq, Mat2D.add, Mat2D.map]

/-- A concrete 2→3 layer for the C10 witness. -/
def c10Layer : Layer :=
  ⟨2, 3, ⟨3, 2, fun _ _ => 1⟩, ⟨3, 1, fun _ _ => 0⟩, ActivationFn.tanh⟩

/-- Witness for C10 on concrete one-layer networks. -/
theorem c10_witness :
    sameTopology (Network.mutate ⟨[c10Layer]⟩ (fun _ => (fun _ _ => 1, fun _ _ => 1)))
      ⟨[c10Layer]⟩ ∧
    sameTopology
      (Network.crossover ⟨[c10Layer]⟩ ⟨[c10Layer]⟩ (1/2) (fun _ _ _ => (true, false)))
      ⟨[c10Layer]⟩ ∧
    sameTopology (Network.average ⟨[c10Layer]⟩ ⟨[c10Layer]⟩) ⟨[c10Layer]⟩ :=
  ⟨c10_operators_preserve_topology.1 ⟨[c10Layer]⟩ _,
   c10_operators_preserve_topology.2.1 ⟨[c10Layer]⟩ ⟨[c10Layer]⟩ (by decide) (1/2) _,
   c10_operators_preserve_topology.2.2 ⟨[c10Layer]⟩ ⟨[c10Layer]⟩ (by decide)⟩

end Smarticles

namespace Smarticles

instance : Inhabited Batch := ⟨⟨[], 0⟩⟩

/-- C7: whenever `evolve` (either variant) completes — i.e. neither
the weighted-sampling construction nor an assertion panics — the new
population has exactly the size of the input population and the
generation counter grows by exactly one.  The ranking produced by
`rank` over the batch's per-network evaluation data has one entry per
network, which is the length hypothesis. -/
theorem c7_evolve_generation_invariant :
    (∀ (batch : Batch) (ranking : List (ℕ × ℚ)) (mutation_rate : ℚ)
        (so : ℕ → ℕ) (mo : ℕ → ℕ → (ℕ → ℕ → ℚ) × (ℕ → ℕ → ℚ))
        (po : ℕ → ℕ → ℕ → ℕ → Bool × Bool)
        (hlen : ranking.length = batch.networks.length)
        (h : (evolve_b batch ranking mutation_rate so mo po).isSome = true),
      ((evolve_b batch ranking mutation_rate so mo po).get!).networks.length
          = batch.networks.length ∧
      ((evolve_b batch ranking mutation_rate so mo po).get!).generation
          = batch.generation + 1) ∧
    (∀ (batch : Batch) (mutation_rate : ℚ) (ranking : List (ℕ × ℚ))
        (so : ℕ → ℕ) (mo : ℕ → ℕ → (ℕ → ℕ → ℚ) × (ℕ → ℕ → ℚ))
        (hlen : ranking.length = batch.networks.length)
        (h : (evolve_bt batch mutation_rate ranking so mo).isSome = true),
      ((evolve_bt batch mutation_rate ranking so mo).get!).networks.length
          = batch.networks.length ∧
      ((evolve_bt batch mutation_rate ranking so mo).get!).generation
          = batch.generation + 1) := by
  constructor
  · intro batch ranking mutation_rate so mo po hlen h
    unfold evolve_b at h ⊢
    dsimp only at h ⊢
    cases hw : weightedIndexNew (evolveWeightsB batch.networks.length ranking) with
    | error e =>
      rw [hw] at h
      simp at h
    | ok ws => simp [List.length_range]
  · intro batch mutation_rate ranking so mo hlen h
    unfold evolve_bt at h ⊢
    dsimp only at h ⊢
    by_cases hmr : ¬ (0 ≤ mutation_rate ∧ mutation_rate ≤ 1)
    · rw [if_pos hmr] at h
      simp at h
    · rw [if_neg hmr] at h ⊢
      cases hw : weightedIndexNew (evolveWeightsBT ranking) with
      | error e =>
        rw [hw] at h
        simp at h
      | ok ws => simp [List.length_range, hlen]

/-- Concrete four-network batch for the evolve witnesses. -/
def c7Batch : Batch :=
  ⟨[⟨[]⟩, ⟨[]⟩, ⟨[]⟩, ⟨[]⟩], 7⟩

/-- Concrete strictly decreasing ranking for the evolve witnesses. -/
def c7Ranking : List (ℕ × ℚ) := [(0, 3), (1, 2), (2, 1), (3, 0)]

/-- Witness for C7 on concrete batch, ranking and oracles. -/
theorem c7_witness :
    (((evolve_b c7Batch c7Ranking (1/2) (fun _ => 0)
        (fun _ => fun _ => (fun _ _ => 0, fun _ _ => 0))
        (fun _ _ _ _ => (true, true))).get!).networks.length
      = c7Batch.networks.length ∧
     ((evolve_b c7Batch c7Ranking (1/2) (fun _ => 0)
        (fun _ => fun _ => (fun _ _ => 0, fun _ _ => 0))
        (fun _ _ _ _ => (true, true))).get!).generation
      = c7Batch.generation + 1) ∧
    (((evolve_bt c7Batch (1/2) c7Ranking (fun _ => 0)
        (fun _ => fun _ => (fun _ _ => 0, fun _ _ => 0))).get!).networks.length
      = c7Batch.networks.length ∧
     ((evolve_bt c7Batch (1/2) c7Ranking (fun _ => 0)
        (fun _ => fun _ => (fun _ _ => 0, fun _ _ => 0))).get!).generation
      = c7Batch.generation + 1) :=
  ⟨c7_evolve_generation_invariant.1 c7Batch c7Ranking (1/2) (fun _ => 0)
      (fun _ => fun _ => (fun _ _ => 0, fun _ _ => 0)) (fun _ _ _ _ => (true, true))
      (by with_unfolding_all decide) (by with_unfolding_all decide),
   c7_evolve_generation_invariant.2 c7Batch (1/2) c7Ranking (fun _ => 0)
      (fun _ => fun _ => (fun _ _ => 0, fun _ _ => 0))
      (by with_unfolding_all decide) (by with_unfolding_all decide)⟩

/-- The all-tied ranking on which the selection weights degenerate. -/
def c8TiedRanking : List (ℕ × ℚ) := [(0, 1), (1, 1), (2, 1), (3, 1)]

/-- C8 (behaviour of the code at the failing input): with all scores
tied, both evolve variants compute NaN selection weights (`0/0`), and
`WeightedIndex::new(..).unwrap()` panics (modelled by `none`) instead
of falling back to uniform weights. -/
theorem c8_tied_scores_nan_panic :
    F.nan ∈ evolveWeightsB 4 c8TiedRanking ∧
    F.nan ∈ evolveWeightsBT c8TiedRanking ∧
    (weightedIndexNew (evolveWeightsB 4 c8TiedRanking)).isOk = false ∧
    (weightedIndexNew (evolveWeightsBT c8TiedRanking)).isOk = false ∧
    (evolve_b ⟨[⟨[]⟩, ⟨[]⟩, ⟨[]⟩, ⟨[]⟩], 0⟩ c8TiedRanking 1 (fun _ => 0)
      (fun _ => fun _ => (fun _ _ => 0, fun _ _ => 0))
      (fun _ _ _ _ => (true, true))).isSome = false ∧
    (evolve_bt ⟨[⟨[]⟩, ⟨[]⟩, ⟨[]⟩, ⟨[]⟩], 0⟩ 1 c8TiedRanking (fun _ => 0)
      (fun _ => fun _ => (fun _ _ => 0, fun _ _ => 0))).isSome = false := by
  with_unfolding_all decide

end Smarticles

namespace Smarticles

theorem fminFold (rest : List ℚ) : ∀ a : ℚ,
    rest.foldl (fun acc s => F.fmin acc (F.fin s)) (F.fin a) = F.fin (rest.foldl min a) := by
  induction rest with
  | nil => intro a; rfl
  | cons b r ih =>
    intro a
    rw [List.foldl_cons, List.foldl_cons]
    exact ih (min a b)

theorem fmaxFold (rest : List ℚ) : ∀ a : ℚ,
    rest.foldl (fun acc s => F.fmax acc (F.fin s)) (F.fin a) = F.fin (rest.foldl max a) := by
  induction rest with
  | nil => intro a; rfl
  | cons b r ih =>
    intro a
    rw [List.foldl_cons, List.foldl_cons]
    exact ih (max a b)

/-- The ranking exposing the C6 normalization-window mismatch:
descending scores `3, 2, 1, 0`. -/
def c6Ranking : List (ℕ × ℚ) := [(0, 3), (1, 2), (2, 1), (3, 0)]

/-- Counterexample to C6 as stated: on the ranking with scores
`3, 2, 1, 0`, the weight vectors actually built by both evolve
variants differ from the claim's weights (which normalize against the
min/max of the top half only). -/
theorem c6_counterexample :
    evolveWeightsB 4 c6Ranking ≠ claimWeights c6Ranking ∧
    evolveWeightsBT c6Ranking ≠ claimWeights c6Ranking := by
  with_unfolding_all decide

/-- C6 (amended): the selection-weight vectors of the two evolve
variants, with their actual normalization windows.  In
`src/ai/batch.rs` the min/max window is the whole ranking; in
`src/ai/batch_training.rs` it is the first `l/2 + 1` ranking entries.
In both, an index `i < l/2` gets the window-normalized score of entry
`i`, an index in `[l/2, 3l/4)` gets half the normalized score of entry
`l/2 - 1` (the worst member of the top half), and the last quarter
gets weight `0`. -/
theorem c6_amended_weight_windows :
    (∀ (ranking : List (ℕ × ℚ)) (l : ℕ) (s0 : ℚ) (rest : List ℚ) (m M : ℚ),
      ranking.map (fun e => e.2) = s0 :: rest →
      m = rest.foldl min s0 → M = rest.foldl max s0 → m < M →
      evolveWeightsB l ranking = (List.range l).map (fun i =>
        if i < l / 2 then
          F.fin (((ranking.getD i (0, 0)).2 - m) / (M - m))
        else if i < 3 * l / 4 then
          F.fin ((1 / 2 * ((ranking.getD (l / 2 - 1) (0, 0)).2 - m)) / (M - m))
        else F.fin 0)) ∧
    (∀ (ranking : List (ℕ × ℚ)) (s0 : ℚ) (rest : List ℚ) (m M : ℚ),
      (ranking.take (ranking.length / 2 + 1)).map (fun e => e.2) = s0 :: rest →
      m = rest.foldl min s0 → M = rest.foldl max s0 → m < M →
      evolveWeightsBT ranking = (List.range ranking.length).map (fun i =>
        if i < ranking.length / 2 then
          F.fin (((ranking.getD i (0, 0)).2 - m) / (M - m))
        else if i < 3 * ranking.length / 4 then
          F.fin ((1 / 2 * ((ranking.getD (ranking.length / 2 - 1) (0, 0)).2 - m)) / (M - m))
        else F.fin 0)) := by
  have hMm : ∀ m M : ℚ, m < M → ¬ (M - m = 0) := by
    intro m M h
    intro h0
    nlinarith
  constructor
  · intro ranking l s0 rest m M hs hm hM hne
    unfold evolveWeightsB
    dsimp only
    rw [hs, List.foldl_cons, List.foldl_cons,
      show F.fmin F.pinf (F.fin s0) = F.fin s0 from rfl,
      show F.fmax F.ninf (F.fin s0) = F.fin s0 from rfl,
      fminFold, fmaxFold, ← hm, ← hM]
    apply List.map_congr_left
    intro i _
    split_ifs with h1 h2
    · simp [F.sub, F.div, hMm m M hne]
    · simp [F.sub, F.div, F.mul, hMm m M hne]
    · rfl
  · intro ranking s0 rest m M hs hm hM hne
    unfold evolveWeightsBT
    dsimp only
    rw [hs, List.foldl_cons, List.foldl_cons,
      show F.fmin F.pinf (F.fin s0) = F.fin s0 from rfl,
      show F.fmax F.ninf (F.fin s0) = F.fin s0 from rfl,
      fminFold, fmaxFold, ← hm, ← hM]
    apply List.map_congr_left
    intro i _
    split_ifs with h1 h2
    · simp [F.sub, F.div, hMm m M hne]
    · simp [F.sub, F.div, F.mul, hMm m M hne]
    · rfl

/-- Witness for the amended C6 on the concrete ranking `3, 2, 1, 0`. -/
theorem c6_amended_witness :
    evolveWeightsB 4 c6Ranking = (List.range 4).map (fun i =>
      if i < 4 / 2 then
        F.fin (((c6Ranking.getD i (0, 0)).2 - 0) / (3 - 0))
      else if i < 3 * 4 / 4 then
        F.fin ((1 / 2 * ((c6Ranking.getD (4 / 2 - 1) (0, 0)).2 - 0)) / (3 - 0))
      else F.fin 0) ∧
    evolveWeightsBT c6Ranking = (List.range c6Ranking.length).map (fun i =>
      if i < c6Ranking.length / 2 then
        F.fin (((c6Ranking.getD i (0, 0)).2 - 1) / (3 - 1))
      else if i < 3 * c6Ranking.length / 4 then
        F.fin ((1 / 2 * ((c6Ranking.getD (c6Ranking.length / 2 - 1) (0, 0)).2 - 1)) / (3 - 1))
      else F.fin 0) :=
  ⟨c6_amended_weight_windows.1 c6Ranking 4 3 [2, 1, 0] 0 3 (by rfl)
      (by with_unfolding_all decide) (by with_unfolding_all decide) (by norm_num),
   c6_amended_weight_windows.2 c6Ranking 3 [2, 1] 1 3 (by rfl)
      (by with_unfolding_all decide) (by with_unfolding_all decide) (by norm_num)⟩

end Smarticles
